import Mathlib

/-!
Verification of the path-templating / parameter-extraction logic of the
terraform-provider-vault repository (`util.ParsePath`, `util.PathParameters`)
and of the token lease check (`vault.tokenCheckLease`).

Go strings are modelled as `List Char` (all strings involved are ASCII, so a
rune-level model is faithful).  The suffix of the development models just
enough of Go's `regexp` package to give `PathParameters` its semantics: the
patterns that function builds are `/`-joined segments in which each segment
is either a run of literal characters or a named one-or-more group
`(?P<name>.+)`, and Go's `regexp` applies leftmost-first (Perl-style
backtracking) match semantics with greedy `+`, where `.` matches every
character except a newline.
-/

set_option maxHeartbeats 1000000

namespace VaultPath

/-- Go strings, modelled as lists of characters. -/
abbrev Str := List Char

/-- Conversion helper from Lean string literals to the `Str` model. -/
def str (s : String) : Str := s.toList

/-- Boolean prefix test on `Str` (Go `strings.HasPrefix` on the model). -/
def isPre : Str → Str → Bool
  | [], _ => true
  | _ :: _, [] => false
  | a :: as, b :: bs => a == b && isPre as bs

/-- Boolean substring test: `occursIn pat s` holds iff `pat` occurs
contiguously inside `s`. -/
def occursIn (pat : Str) : Str → Bool
  | [] => isPre pat []
  | c :: s => isPre pat (c :: s) || occursIn pat s

/-- Go `strings.Split(s, sep)` for a single-character separator.  Always
returns at least one field; returns exactly one field iff the separator does
not occur. -/
def splitOnChar (sep : Char) : Str → List Str
  | [] => [[]]
  | c :: s =>
    if c = sep then [] :: splitOnChar sep s
    else
      match splitOnChar sep s with
      | [] => [[c]]
      | t :: ts => (c :: t) :: ts

/-- Go `strings.Join(fields, "/")`. -/
def joinS : List Str → Str
  | [] => []
  | [x] => x
  | x :: y :: ys => x ++ '/' :: joinS (y :: ys)

/-- Helper of `fieldsFunc`: `cur` is the current (reversed) run of
non-delimiter characters. -/
def fieldsFuncAux (p : Char → Bool) : Str → Str → List Str
  | cur, [] => if cur = [] then [] else [cur.reverse]
  | cur, c :: s =>
    if p c then
      if cur = [] then fieldsFuncAux p [] s else cur.reverse :: fieldsFuncAux p [] s
    else fieldsFuncAux p (c :: cur) s

/-- Go `strings.FieldsFunc`: the maximal non-empty runs of characters not
satisfying the delimiter predicate, in order. -/
def fieldsFunc (p : Char → Bool) (s : Str) : List Str := fieldsFuncAux p [] s

/-- Fuel-indexed helper of `replaceAll`; the fuel is an upper bound on the
length of the remaining string, so the `0, s` fallback never fires. -/
def replaceAllF (p0 : Char) (ps v : Str) : Nat → Str → Str
  | _, [] => []
  | 0, s => s
  | fuel + 1, c :: s =>
    if isPre (p0 :: ps) (c :: s) then v ++ replaceAllF p0 ps v fuel (s.drop ps.length)
    else c :: replaceAllF p0 ps v fuel s

/-- Go `strings.Replace(s, p0 :: ps, v, -1)` (= `strings.ReplaceAll`): replace
every occurrence of the non-empty pattern `p0 :: ps`, scanning left to right,
without rescanning replaced text. -/
def replaceAll (p0 : Char) (ps v s : Str) : Str := replaceAllF p0 ps v s.length s

/-- The brace token `{f}` used by the templater as replacement target. -/
def tok (f : Str) : Str := '{' :: f ++ ['}']

/-- The delimiter predicate of `ParsePath`'s `strings.FieldsFunc` call. -/
def braceDelim (c : Char) : Bool := c = '{' || c = '}'

/-- The string `ParsePath` calls `recomprised`: the endpoint split on `/`,
field 1 replaced by the user-supplied mount path, re-joined behind a single
leading `/`.  `none` models the Go index-out-of-range panic of `fields[1]`
when the endpoint contains no `/`. -/
def recomprise (userSuppliedPath endpoint : Str) : Option Str :=
  let fields := splitOnChar '/' endpoint
  if fields.length < 2 then none
  else
    let fields := fields.set 1 userSuppliedPath
    some ('/' :: joinS (fields.drop 1))

/-- `util.ParsePath` from `src/unnamed/part_000`.  The field lookup
`d : Str → Option Str` models `d.GetOk` restricted to string values (`none`
models `ok = false`).  The function splits the endpoint on `/`, overwrites
field 1 with the user-supplied mount path (a Go panic when that index does
not exist, modelled by `none`), re-joins with a single leading `/`, extracts
the runs between `{`/`}` delimiters with `strings.FieldsFunc`, and for every
run that the lookup resolves performs a global string replacement of the
token `{run}` by the resolved value. -/
def ParsePath (userSuppliedPath endpoint : Str) (d : Str → Option Str) : Option Str :=
  match recomprise userSuppliedPath endpoint with
  | none => none
  | some recomprised =>
    let fields := fieldsFunc braceDelim recomprised
    some (fields.foldl
      (fun s field =>
        match d field with
        | none => s
        | some val => replaceAll '{' (field ++ ['}']) val s)
      recomprised)

/-! ## The regular-expression model

`PathParameters` builds a pattern string from the endpoint and hands it to
`regexp.Compile` / `FindStringSubmatch`.  The patterns built from endpoint
templates in the documented grammar consist only of literal characters and
named groups `(?P<name>.+)`; `regexpCompile` below parses exactly that
fragment of Go regexp syntax (conservatively rejecting all other
metacharacters) and the matcher implements Go's leftmost-first semantics
with greedy `.+` groups, `.` not matching `'\n'`. -/

/-- One element of a compiled pattern: a literal character or a named
one-or-more group `(?P<name>.+)`. -/
inductive RItem where
  | lit (c : Char)
  | group (name : Str)
deriving DecidableEq, Repr

/-- Characters with a special meaning for Go's regexp parser. -/
def metaChar (c : Char) : Bool :=
  c = '(' || c = ')' || c = '[' || c = ']' || c = '{' || c = '}' ||
  c = '*' || c = '+' || c = '?' || c = '.' || c = '|' || c = '^' ||
  c = '$' || c = '\\'

/-- Characters Go's regexp parser accepts in a capture group name. -/
def wordChar (c : Char) : Bool :=
  ('a' ≤ c && c ≤ 'z') || ('A' ≤ c && c ≤ 'Z') || ('0' ≤ c && c ≤ '9') || c = '_'

/-- Fuel-indexed helper of `parseItems`; the fuel bounds the string length,
so the `0, _ :: _` fallback never fires.  A group must have the exact shape
`(?P<name>.+)` with a non-empty name of word characters: the name is the
maximal run of word characters after `(?P<`, and the parse fails unless it
is followed by exactly `>.+)`. -/
def parseItemsF : Nat → Str → Option (List RItem)
  | _, [] => some []
  | 0, _ :: _ => none
  | fuel + 1, c :: rest =>
    if c = '(' then
      match rest with
      | '?' :: 'P' :: '<' :: rest2 =>
        let name := rest2.takeWhile wordChar
        match rest2.drop name.length with
        | '>' :: '.' :: '+' :: ')' :: rest3 =>
          if name = [] then none else (parseItemsF fuel rest3).map (.group name :: ·)
        | _ => none
      | _ => none
    else if metaChar c then none
    else (parseItemsF fuel rest).map (.lit c :: ·)

/-- Parser for the pattern fragment generated by `PathParameters`: literal
characters plus groups of the exact shape `(?P<name>.+)`.  Returns `none`
exactly when Go's `regexp.Compile` would reject such a pattern (bad group
syntax, bad name, stray metacharacter). -/
def parseItems (s : Str) : Option (List RItem) := parseItemsF s.length s

/-- The names of the named capture groups of a compiled pattern, in order
(Go `Regexp.SubexpNames`, minus the whole-match entry). -/
def groupNames : List RItem → List Str
  | [] => []
  | .lit _ :: rest => groupNames rest
  | .group n :: rest => n :: groupNames rest

/-- `regexp.Compile` on the generated-pattern fragment.  Go additionally
rejects duplicate capture group names, which the final check models. -/
def regexpCompile (pattern : Str) : Option (List RItem) :=
  match parseItems pattern with
  | none => none
  | some items => if (groupNames items).Nodup then some items else none

/-- The descending list `[n, n-1, …, 1]`, the candidate lengths a greedy
`.+` group tries, longest first. -/
def downFrom : Nat → List Nat
  | 0 => []
  | n + 1 => (n + 1) :: downFrom n

/-- First `some` result of `f` along a list (used for backtracking order). -/
def firstSome (f : Nat → Option α) : List Nat → Option α
  | [] => none
  | k :: ks =>
    match f k with
    | some r => some r
    | none => firstSome f ks

/-- Backtracking matcher, Perl/Go leftmost-first semantics, matching a
prefix of `s` against the items.  A group `(?P<n>.+)` greedily captures
`k ≥ 1` characters none of which is a newline, preferring larger `k`,
backtracking into the continuation.  Returns the captures in group order. -/
def matchItems : List RItem → Str → Option (List (Str × Str))
  | [], _ => some []
  | .lit _ :: _, [] => none
  | .lit c :: rest, x :: xs => if x = c then matchItems rest xs else none
  | .group n :: rest, s =>
    firstSome
      (fun k =>
        let taken := s.take k
        if '\n' ∈ taken then none
        else (matchItems rest (s.drop k)).map ((n, taken) :: ·))
      (downFrom s.length)

/-- Go `Regexp.FindStringSubmatch`: try the match at every start position,
left to right, returning the captures of the leftmost match. -/
def findStringSubmatch (items : List RItem) : Str → Option (List (Str × Str))
  | [] => matchItems items []
  | c :: s =>
    match matchItems items (c :: s) with
    | some r => some r
    | none => findStringSubmatch items s

/-- Result of `util.PathParameters`: the Go `fields[1]` panic, the
`regexp.Compile` error, the "could not parse %q into %q" error, or the
parameter map (as an association list in capture-group order; Go builds a
`map[string]string`, whose keys are exactly these and unique). -/
inductive PPResult where
  | panic
  | compileErr
  | parseErr
  | ok (params : List (Str × Str))
deriving DecidableEq, Repr

/-- The regexp conversion `PathParameters` applies to each field: a field
starting with `{` gets every `{` replaced by `(?P<` and every `}` by
`>.+)`; other fields are kept verbatim. -/
def regexifyField (f : Str) : Str :=
  if isPre (str "\x7b") f then
    replaceAll '}' [] (str ">.+)") (replaceAll '{' [] (str "(?P<") f)
  else f

/-- The pattern string `PathParameters` builds: endpoint split on `/`,
field 1 forced to `{path}`, every field starting with `{` converted by the
two global replacements `{` ↦ `(?P<` and `}` ↦ `>.+)`, all re-joined with
`/`.  `none` models the `fields[1]` panic. -/
def buildPattern (endpoint : Str) : Option Str :=
  let fields := splitOnChar '/' endpoint
  if fields.length < 2 then none
  else
    let fields := fields.set 1 (str "{path}")
    let fields := fields.map regexifyField
    some (joinS fields)

/-- `util.PathParameters` from `src/unnamed/part_000`.  Builds the pattern,
compiles it, finds the leftmost submatch of `vaultPath`, and walks
`SubexpNames`: with no match, any named group triggers the parse error
(`match` is empty, so `i >= len(match)`), and on a match every named group's
capture is recorded under its name. -/
def PathParameters (endpoint vaultPath : Str) : PPResult :=
  match buildPattern endpoint with
  | none => .panic
  | some pattern =>
    match regexpCompile pattern with
    | none => .compileErr
    | some items =>
      match findStringSubmatch items vaultPath with
      | none => if groupNames items = [] then .ok [] else .parseErr
      | some params => .ok params

/-- Lookup in the returned parameter map (Go `result[name]`). -/
def mapGet (m : List (Str × Str)) (k : Str) : Option Str :=
  match m with
  | [] => none
  | (k', v) :: rest => if k' = k then some v else mapGet rest k

end VaultPath

namespace VaultToken

/-- Nanoseconds per second (Go `time.Duration` arithmetic). -/
def nsPerSec : Int := 1000000000

/-- Nanoseconds in the five-minute window `time.Minute * 5`. -/
def fiveMinNs : Int := 300 * nsPerSec

/-- Two's-complement wrap-around to a signed 64-bit value: Go evaluates
`time.Second * time.Duration(duration)` in `int64` arithmetic, which
overflows by wrapping. -/
def wrap64 (z : Int) : Int := (z + 2 ^ 63) % 2 ^ 64 - 2 ^ 63

/-- `vault.tokenCheckLease` from `src/unnamed/part_002`, with instants as
integer nanosecond timestamps and both `time.Now()` calls modelled as the
single instant `now`.  `parse` models `time.Parse(time.RFC3339, ·)`
(`none` = parse error, in which case the code clears `lease_started` and
returns `false`); `startedStr` is the stored `lease_started` string and
`duration` the stored `lease_duration` in seconds.  The lease duration in
nanoseconds is `time.Second * time.Duration(duration)`, a wrapping `int64`
product, hence `wrap64 (duration * nsPerSec)`; `time.Time` arithmetic
(`Add`, `Before`, `After`) does not wrap at the nanosecond scale and is
kept unbounded.  Returns whether the renewal branch of `tokenRead` runs. -/
def tokenCheckLease (parse : VaultPath.Str → Option Int) (now : Int)
    (startedStr : VaultPath.Str) (duration : Int) : Bool :=
  if startedStr = [] then false
  else
    match parse startedStr with
    | none => false
    | some started =>
      if started + wrap64 (duration * nsPerSec) + fiveMinNs < now then false
      else if started + wrap64 (duration * nsPerSec) > now - fiveMinNs then false
      else true

end VaultToken

namespace VaultPath

/-! ## Basic lemmas about the string helpers -/

theorem isPre_iff {p s : Str} : isPre p s = true ↔ p <+: s := by
  induction p generalizing s with
  | nil => simp [isPre]
  | cons a as ih =>
    cases s with
    | nil => simp [isPre]
    | cons b bs =>
      simp [isPre, Bool.and_eq_true, beq_iff_eq, ih, List.cons_prefix_cons]

theorem isPre_self_append (l r : Str) : isPre l (l ++ r) = true :=
  isPre_iff.mpr ⟨r, rfl⟩

theorem occursIn_iff {pat s : Str} : occursIn pat s = true ↔ pat <:+: s := by
  induction s with
  | nil => simp [occursIn, isPre_iff, List.prefix_nil]
  | cons c cs ih => simp [occursIn, isPre_iff, ih, List.infix_cons_iff]

theorem splitOnChar_ne_nil (sep : Char) (s : Str) : splitOnChar sep s ≠ [] := by
  induction s with
  | nil => simp [splitOnChar]
  | cons c cs ih =>
    simp only [splitOnChar]
    split
    · simp
    · split
      · simp
      · simp

theorem length_splitOnChar (sep : Char) (s : Str) :
    (splitOnChar sep s).length = s.count sep + 1 := by
  induction s with
  | nil => simp [splitOnChar]
  | cons c cs ih =>
    simp only [splitOnChar]
    split
    · rename_i h
      simp [List.count_cons, h, ih]
    · rename_i h
      rcases hs : splitOnChar sep cs with _ | ⟨t, ts⟩
      · exact absurd hs (splitOnChar_ne_nil sep cs)
      · have := ih
        rw [hs] at this
        simp only [List.length_cons] at this ⊢
        simp [List.count_cons, h, ← this]

theorem two_le_splitOnChar_iff {sep : Char} {s : Str} :
    2 ≤ (splitOnChar sep s).length ↔ sep ∈ s := by
  rw [length_splitOnChar]
  constructor
  · intro h
    exact List.count_pos_iff.mp (by omega)
  · intro h
    have := List.count_pos_iff.mpr h
    omega

/-! ## Join / split structure lemmas -/

/-- `"ℓ₁/ℓ₂/…/ℓₖ/"`: the flattened form of segments each followed by a
separator. -/
def preSlash (pre : List Str) : Str := pre.foldr (fun ℓ a => ℓ ++ '/' :: a) []

/-- `"/p₁/p₂…/pₘ"`: the flattened form of segments each preceded by a
separator. -/
def slashPre (post : List Str) : Str := post.foldr (fun q a => '/' :: q ++ a) []

theorem joinS_cons_of_ne_nil {x : Str} {xs : List Str} (h : xs ≠ []) :
    joinS (x :: xs) = x ++ '/' :: joinS xs := by
  cases xs with
  | nil => exact absurd rfl h
  | cons y ys => rfl

theorem joinS_cons_slashPre (mid : Str) (post : List Str) :
    joinS (mid :: post) = mid ++ slashPre post := by
  induction post generalizing mid with
  | nil => simp [joinS, slashPre]
  | cons q qs ih =>
    rw [joinS_cons_of_ne_nil (by simp), ih]
    simp [slashPre]

theorem joinS_decompose (pre : List Str) (mid : Str) (post : List Str) :
    joinS (pre ++ mid :: post) = preSlash pre ++ mid ++ slashPre post := by
  induction pre with
  | nil => simp [preSlash, joinS_cons_slashPre]
  | cons ℓ ls ih =>
    rw [List.cons_append, joinS_cons_of_ne_nil (by simp), ih]
    simp [preSlash]

theorem splitOnChar_cons_sep (sep : Char) (s : Str) :
    splitOnChar sep (sep :: s) = [] :: splitOnChar sep s := by
  simp [splitOnChar]

theorem splitOnChar_cons_ne {c sep : Char} (h : c ≠ sep) (s : Str) :
    ∃ t ts, splitOnChar sep s = t :: ts ∧
      splitOnChar sep (c :: s) = (c :: t) :: ts := by
  rcases hs : splitOnChar sep s with _ | ⟨t, ts⟩
  · exact absurd hs (splitOnChar_ne_nil sep s)
  · exact ⟨t, ts, rfl, by simp only [splitOnChar, if_neg h, hs]⟩

theorem splitOnChar_sepFree {sep : Char} {f : Str} (hf : sep ∉ f) :
    splitOnChar sep f = [f] := by
  induction f with
  | nil => rfl
  | cons c cs ih =>
    have hc : c ≠ sep := fun h => hf (h ▸ List.mem_cons_self c cs)
    have hcs : sep ∉ cs := fun h => hf (List.mem_cons_of_mem _ h)
    obtain ⟨t, ts, h1, h2⟩ := splitOnChar_cons_ne hc cs
    rw [ih hcs] at h1
    cases h1
    simpa using h2

theorem splitOnChar_append_sep {sep : Char} {f : Str} (hf : sep ∉ f) (s : Str) :
    splitOnChar sep (f ++ sep :: s) = f :: splitOnChar sep s := by
  induction f with
  | nil => simp [splitOnChar_cons_sep]
  | cons c cs ih =>
    have hc : c ≠ sep := fun h => hf (h ▸ List.mem_cons_self c cs)
    have hcs : sep ∉ cs := fun h => hf (List.mem_cons_of_mem _ h)
    obtain ⟨t, ts, h1, h2⟩ := splitOnChar_cons_ne hc (cs ++ sep :: s)
    rw [ih hcs] at h1
    cases h1
    simpa using h2

/-- Splitting on `/` is a left inverse of joining with `/` for slash-free
fields. -/
theorem splitOnChar_joinS {fs : List Str} (hne : fs ≠ [])
    (hfree : ∀ f ∈ fs, '/' ∉ f) :
    splitOnChar '/' (joinS fs) = fs := by
  induction fs with
  | nil => exact absurd rfl hne
  | cons f fs ih =>
    cases fs with
    | nil =>
      rw [joinS, splitOnChar_sepFree (hfree f (by simp))]
    | cons g gs =>
      rw [joinS_cons_of_ne_nil (by simp),
        splitOnChar_append_sep (hfree f (by simp)),
        ih (by simp) (fun x hx => hfree x (List.mem_cons_of_mem _ hx))]

/-! ## Lemmas about `replaceAll` -/

theorem replaceAllF_nil (p0 : Char) (ps v : Str) (fuel : Nat) :
    replaceAllF p0 ps v fuel [] = [] := by
  cases fuel <;> rfl

theorem replaceAllF_fuel (p0 : Char) (ps v : Str) :
    ∀ fuel₁ fuel₂ (s : Str), s.length ≤ fuel₁ → s.length ≤ fuel₂ →
      replaceAllF p0 ps v fuel₁ s = replaceAllF p0 ps v fuel₂ s := by
  intro fuel₁
  induction fuel₁ with
  | zero =>
    intro fuel₂ s h1 _
    rw [List.length_eq_zero.mp (Nat.le_zero.mp h1), replaceAllF_nil, replaceAllF_nil]
  | succ f ih =>
    intro fuel₂ s h1 h2
    cases s with
    | nil => rw [replaceAllF_nil, replaceAllF_nil]
    | cons c s' =>
      cases fuel₂ with
      | zero => simp at h2
      | succ f₂ =>
        simp only [List.length_cons, Nat.succ_le_succ_iff] at h1 h2
        simp only [replaceAllF]
        by_cases hp : isPre (p0 :: ps) (c :: s') = true
        · rw [if_pos hp, if_pos hp,
            ih f₂ _ (Nat.le_trans (by simp [List.length_drop]; omega) (Nat.le_refl _))
              (by simp [List.length_drop]; omega)]
        · rw [if_neg hp, if_neg hp, ih f₂ s' h1 h2]

theorem replaceAll_nil (p0 : Char) (ps v : Str) : replaceAll p0 ps v [] = [] := rfl

theorem replaceAll_cons_not_pre {p0 : Char} {ps : Str} {c : Char} {s : Str}
    (h : ¬ (p0 :: ps) <+: (c :: s)) (v : Str) :
    replaceAll p0 ps v (c :: s) = c :: replaceAll p0 ps v s := by
  have hb : ¬ isPre (p0 :: ps) (c :: s) = true := fun hh => h (isPre_iff.mp hh)
  show replaceAllF p0 ps v (c :: s).length (c :: s) = _
  rw [List.length_cons, replaceAllF, if_neg hb]
  rfl

theorem replaceAll_cons_hit (p0 : Char) (ps v rest : Str) :
    replaceAll p0 ps v (p0 :: ps ++ rest) = v ++ replaceAll p0 ps v rest := by
  have hpre : isPre (p0 :: ps) (p0 :: (ps ++ rest)) = true := by
    simpa using isPre_self_append (p0 :: ps) rest
  show replaceAllF p0 ps v (p0 :: (ps ++ rest)).length (p0 :: (ps ++ rest)) = _
  rw [List.length_cons, replaceAllF, if_pos hpre, List.drop_left]
  congr 1
  exact replaceAllF_fuel p0 ps v _ _ rest (by simp) (Nat.le_refl _)

theorem replaceAll_not_contains {p0 : Char} {s : Str} (h : p0 ∉ s) (ps v : Str) :
    replaceAll p0 ps v s = s := by
  induction s with
  | nil => exact replaceAll_nil _ _ _
  | cons c cs ih =>
    have hc : c ≠ p0 := fun hh => h (hh ▸ List.mem_cons_self c cs)
    rw [replaceAll_cons_not_pre (fun hp => hc (List.cons_prefix_cons.mp hp).1.symm) v,
      ih (fun hh => h (List.mem_cons_of_mem _ hh))]

theorem replaceAll_append_free {p0 : Char} {X : Str} (h : p0 ∉ X) (ps v rest : Str) :
    replaceAll p0 ps v (X ++ rest) = X ++ replaceAll p0 ps v rest := by
  induction X with
  | nil => simp
  | cons c cs ih =>
    have hc : c ≠ p0 := fun hh => h (hh ▸ List.mem_cons_self c cs)
    rw [List.cons_append,
      replaceAll_cons_not_pre (fun hp => hc (List.cons_prefix_cons.mp hp).1.symm) v,
      ih (fun hh => h (List.mem_cons_of_mem _ hh))]
    simp

/-! ## Lemmas about `fieldsFunc` -/

theorem fieldsFuncAux_free {p : Char → Bool} {A : Str} (hA : ∀ c ∈ A, p c = false) :
    ∀ cur s', fieldsFuncAux p cur (A ++ s') = fieldsFuncAux p (A.reverse ++ cur) s' := by
  induction A with
  | nil => intro cur s'; simp
  | cons a as ih =>
    intro cur s'
    have ha := hA a (by simp)
    rw [List.cons_append, fieldsFuncAux, if_neg (by simp [ha]),
      ih (fun c hc => hA c (List.mem_cons_of_mem _ hc)) (a :: cur) s']
    simp

theorem fieldsFunc_nil (p : Char → Bool) : fieldsFunc p [] = [] := rfl

theorem fieldsFunc_cons_delim {p : Char → Bool} {c : Char} (hc : p c = true)
    (s : Str) : fieldsFunc p (c :: s) = fieldsFunc p s := by
  unfold fieldsFunc
  rw [fieldsFuncAux, if_pos hc, if_pos rfl]

theorem fieldsFunc_run {p : Char → Bool} {A : Str} (hA : ∀ c ∈ A, p c = false)
    (hne : A ≠ []) {d : Char} (hd : p d = true) (rest : Str) :
    fieldsFunc p (A ++ d :: rest) = A :: fieldsFunc p rest := by
  unfold fieldsFunc
  rw [fieldsFuncAux_free hA [] (d :: rest), List.append_nil, fieldsFuncAux,
    if_pos hd, if_neg (by simpa using hne)]
  simp

theorem fieldsFunc_last {p : Char → Bool} {A : Str} (hA : ∀ c ∈ A, p c = false)
    (hne : A ≠ []) : fieldsFunc p A = [A] := by
  unfold fieldsFunc
  have := fieldsFuncAux_free hA [] []
  rw [List.append_nil, List.append_nil] at this
  rw [this, fieldsFuncAux, if_neg (by simpa using hne)]
  simp

theorem fieldsFuncAux_mem {p : Char → Bool} :
    ∀ (s cur f : Str), (∀ c ∈ cur, p c = false) → f ∈ fieldsFuncAux p cur s →
      f ≠ [] ∧ ∀ c ∈ f, p c = false := by
  intro s
  induction s with
  | nil =>
    intro cur f hcur hf
    rw [fieldsFuncAux] at hf
    by_cases hc : cur = []
    · rw [if_pos hc] at hf; simp at hf
    · rw [if_neg hc] at hf
      have : f = cur.reverse := by simpa using hf
      subst this
      exact ⟨by simpa using hc, fun c hc' => hcur c (List.mem_reverse.mp hc')⟩
  | cons c s ih =>
    intro cur f hcur hf
    rw [fieldsFuncAux] at hf
    by_cases hp : p c = true
    · rw [if_pos hp] at hf
      by_cases hc : cur = []
      · rw [if_pos hc] at hf
        exact ih [] f (by simp) hf
      · rw [if_neg hc] at hf
        rcases List.mem_cons.mp hf with h | h
        · subst h
          exact ⟨by simpa using hc, fun x hx => hcur x (List.mem_reverse.mp hx)⟩
        · exact ih [] f (by simp) h
    · rw [if_neg hp] at hf
      refine ih (c :: cur) f ?_ hf
      intro x hx
      rcases List.mem_cons.mp hx with h | h
      · subst h; simpa using hp
      · exact hcur x h

theorem fieldsFunc_mem {p : Char → Bool} {s f : Str} (h : f ∈ fieldsFunc p s) :
    f ≠ [] ∧ ∀ c ∈ f, p c = false :=
  fieldsFuncAux_mem s [] f (by simp) h

/-! ## Token-overlap lemmas (placeholder tokens cannot overlap) -/

theorem tok_body_prefix_unique {n f rest : Str} (hn : '}' ∉ n) (hf : '}' ∉ f)
    (h : n ++ ['}'] <+: f ++ '}' :: rest) : n = f := by
  induction n generalizing f with
  | nil =>
    cases f with
    | nil => rfl
    | cons x f' =>
      exfalso
      simp only [List.nil_append, List.cons_append, List.cons_prefix_cons] at h
      exact hf (List.mem_cons.mpr (Or.inl h.1))
  | cons c n' ih =>
    cases f with
    | nil =>
      exfalso
      simp only [List.cons_append, List.nil_append, List.cons_prefix_cons] at h
      exact hn (List.mem_cons.mpr (Or.inl h.1.symm))
    | cons x f' =>
      simp only [List.cons_append, List.cons_prefix_cons] at h
      have : n' = f' :=
        ih (fun hh => hn (List.mem_cons_of_mem _ hh))
          (fun hh => hf (List.mem_cons_of_mem _ hh)) h.2
      rw [h.1, this]

theorem tok_prefix_unique {n f rest : Str} (hn : '}' ∉ n) (hf : '}' ∉ f)
    (h : tok n <+: tok f ++ rest) : n = f := by
  simp only [tok, List.cons_append, List.append_assoc, List.singleton_append,
    List.cons_prefix_cons, true_and] at h
  exact tok_body_prefix_unique hn hf h

theorem tok_infix_body {n f rest l r : Str} (hf : '{' ∉ f)
    (h : l ++ tok n ++ r = f ++ '}' :: rest) : tok n <:+: rest := by
  induction f generalizing l with
  | nil =>
    cases l with
    | nil =>
      exfalso
      simp only [List.nil_append, tok, List.cons_append, List.cons.injEq] at h
      exact absurd h.1 (by decide)
    | cons y l' =>
      simp only [List.nil_append, List.cons_append, List.append_assoc,
        List.cons.injEq] at h
      exact ⟨l', r, by rw [List.append_assoc]; exact h.2⟩
  | cons x f' ih =>
    cases l with
    | nil =>
      exfalso
      simp only [List.nil_append, tok, List.cons_append, List.cons.injEq] at h
      exact hf (List.mem_cons.mpr (Or.inl h.1))
    | cons y l' =>
      have hX' : y :: (l' ++ tok n ++ r) = x :: (f' ++ '}' :: rest) := by
        rw [show y :: (l' ++ tok n ++ r) = (y :: l') ++ tok n ++ r by simp]
        rw [h]
        simp
      injection hX' with h1 h2
      exact ih (fun hh => hf (List.mem_cons_of_mem _ hh)) h2

theorem tok_infix_drop {n f rest : Str} (hn2 : '}' ∉ n) (hf1 : '{' ∉ f)
    (hf2 : '}' ∉ f) (hne : n ≠ f) (h : tok n <:+: tok f ++ rest) :
    tok n <:+: rest := by
  obtain ⟨l, r, hX⟩ := h
  cases l with
  | nil =>
    have hpre : tok n <+: tok f ++ rest := ⟨r, by simpa using hX⟩
    exact absurd (tok_prefix_unique hn2 hf2 hpre) hne
  | cons y l' =>
    have hX' : y :: (l' ++ tok n ++ r) = '{' :: (f ++ '}' :: rest) := by
      rw [show y :: (l' ++ tok n ++ r) = (y :: l') ++ tok n ++ r by simp]
      rw [hX]
      simp [tok]
    injection hX' with h1 h2
    exact tok_infix_body hf1 h2

/-- The survival lemma: a global replacement of the token `{f}` cannot
destroy an occurrence of a different placeholder token `{n}`. -/
theorem tok_survives {n f : Str} (hn1 : '{' ∉ n) (hn2 : '}' ∉ n)
    (hf1 : '{' ∉ f) (hf2 : '}' ∉ f) (hne : n ≠ f) (v : Str) :
    ∀ N, ∀ s : Str, s.length ≤ N → tok n <:+: s →
      tok n <:+: replaceAll '{' (f ++ ['}']) v s := by
  intro N
  induction N with
  | zero =>
    intro s hs h
    interval_cases hl : s.length
    · rw [List.length_eq_zero.mp hl] at h ⊢
      simpa [replaceAll_nil] using h
  | succ N ih =>
    intro s hs h
    by_cases hp : ('{' :: (f ++ ['}'])) <+: s
    · obtain ⟨rest, hrest⟩ := hp
      have hsplit : s = tok f ++ rest := by rw [← hrest]; simp [tok]
      have hdrop : tok n <:+: rest := tok_infix_drop hn2 hf1 hf2 hne (hsplit ▸ h)
      have hlen : rest.length ≤ N := by
        have := congrArg List.length hsplit
        simp [tok] at this
        omega
      have hrec := ih rest hlen hdrop
      rw [hsplit, show tok f ++ rest = '{' :: (f ++ ['}']) ++ rest by simp [tok],
        replaceAll_cons_hit]
      obtain ⟨a, b, hab⟩ := hrec
      exact ⟨v ++ a, b, by simp [← hab]⟩
    · cases s with
      | nil => simpa [replaceAll_nil] using h
      | cons c s' =>
        rw [replaceAll_cons_not_pre hp v]
        obtain ⟨l, r, hX⟩ := h
        cases l with
        | nil =>
          -- the occurrence starts at position 0
          have hc : c = '{' := by
            have := congrArg (List.head? ·) hX
            simp [tok] at this
            exact this.symm
          have hbody : (n ++ ['}']) <+: s' := by
            refine ⟨r, ?_⟩
            have := congrArg List.tail hX
            simpa [tok] using this
          obtain ⟨t, ht⟩ := hbody
          have hfree : '{' ∉ n ++ ['}'] := by simp [hn1]
          rw [← ht, replaceAll_append_free hfree]
          exact ⟨[], replaceAll '{' (f ++ ['}']) v t, by simp [hc, tok]⟩
        | cons y l' =>
          have h' : tok n <:+: s' := by
            refine ⟨l', r, ?_⟩
            have := congrArg List.tail hX
            simpa using this
          have hlen : s'.length ≤ N := by simp at hs; omega
          obtain ⟨a, b, hab⟩ := ih s' hlen h'
          exact ⟨c :: a, b, by simp [← hab]⟩

/-! ## Structure lemmas for `recomprise` / `ParsePath` -/

/-- The per-field substitution step of `ParsePath`'s loop. -/
def substStep (d : Str → Option Str) (s field : Str) : Str :=
  match d field with
  | none => s
  | some val => replaceAll '{' (field ++ ['}']) val s

theorem ParsePath_eq_foldl (mount endpoint : Str) (d : Str → Option Str) :
    ParsePath mount endpoint d =
      match recomprise mount endpoint with
      | none => none
      | some rec => some ((fieldsFunc braceDelim rec).foldl (substStep d) rec) := by
  unfold ParsePath substStep
  rfl

theorem splitOnChar_two {endpoint : Str} (h : '/' ∈ endpoint) :
    ∃ f0 f1 rest, splitOnChar '/' endpoint = f0 :: f1 :: rest := by
  have h2 := two_le_splitOnChar_iff.mpr h
  rcases hs : splitOnChar '/' endpoint with _ | ⟨a, t⟩
  · exact absurd hs (splitOnChar_ne_nil '/' endpoint)
  · rcases t with _ | ⟨b, t'⟩
    · rw [hs] at h2; simp at h2
    · exact ⟨a, b, t', rfl⟩

theorem recomprise_eq (mount : Str) {endpoint f0 f1 : Str} {rest : List Str}
    (h : splitOnChar '/' endpoint = f0 :: f1 :: rest) :
    recomprise mount endpoint = some ('/' :: joinS (mount :: rest)) := by
  unfold recomprise
  rw [h]
  simp [List.set]

theorem recomprise_none {mount endpoint : Str} (h : '/' ∉ endpoint) :
    recomprise mount endpoint = none := by
  unfold recomprise
  have h2 : ¬ 2 ≤ (splitOnChar '/' endpoint).length :=
    fun hh => h (two_le_splitOnChar_iff.mp hh)
  rw [if_pos (by omega)]

theorem ParsePath_some {mount endpoint rec : Str}
    (h : recomprise mount endpoint = some rec) (d : Str → Option Str) :
    ParsePath mount endpoint d =
      some ((fieldsFunc braceDelim rec).foldl (substStep d) rec) := by
  rw [ParsePath_eq_foldl, h]

theorem ParsePath_noSlash {mount endpoint : Str} (h : '/' ∉ endpoint)
    (d : Str → Option Str) : ParsePath mount endpoint d = none := by
  rw [ParsePath_eq_foldl, recomprise_none h]

theorem foldl_subst_survives {n : Str} (hn1 : '{' ∉ n) (hn2 : '}' ∉ n)
    (d : Str → Option Str) (hd : d n = none) :
    ∀ fl : List Str, (∀ f ∈ fl, f ≠ [] ∧ ∀ c ∈ f, braceDelim c = false) →
      ∀ s, tok n <:+: s → tok n <:+: fl.foldl (substStep d) s := by
  intro fl
  induction fl with
  | nil => intro _ s h; simpa using h
  | cons f fl' ih =>
    intro hprops s h
    have hf := hprops f (by simp)
    rw [List.foldl_cons]
    refine ih (fun g hg => hprops g (List.mem_cons_of_mem _ hg)) _ ?_
    cases hdf : d f with
    | none => simpa [substStep, hdf] using h
    | some v =>
      have hb1 : '{' ∉ f := fun hc => by
        have := hf.2 _ hc; simp [braceDelim] at this
      have hb2 : '}' ∉ f := fun hc => by
        have := hf.2 _ hc; simp [braceDelim] at this
      have hnef : n ≠ f := fun he => by rw [he, hdf] at hd; exact Option.noConfusion hd
      simp only [substStep, hdf]
      exact tok_survives hn1 hn2 hb1 hb2 hnef v s.length s (Nat.le_refl _) h

theorem foldl_subst_prefix {P : Str} (hP : '{' ∉ P) (d : Str → Option Str) :
    ∀ (fl : List Str) (rest : Str),
      ∃ rest', fl.foldl (substStep d) (P ++ rest) = P ++ rest' := by
  intro fl
  induction fl with
  | nil => intro rest; exact ⟨rest, by simp⟩
  | cons f fl' ih =>
    intro rest
    rw [List.foldl_cons]
    cases hdf : d f with
    | none =>
      obtain ⟨r', hr'⟩ := ih rest
      exact ⟨r', by simpa [substStep, hdf] using hr'⟩
    | some v =>
      obtain ⟨r', hr'⟩ := ih (replaceAll '{' (f ++ ['}']) v rest)
      refine ⟨r', ?_⟩
      simp only [substStep, hdf]
      rw [replaceAll_append_free hP]
      exact hr'

theorem foldl_subst_braceFree {s : Str} (h1 : '{' ∉ s) (d : Str → Option Str)
    (fl : List Str) : fl.foldl (substStep d) s = s := by
  induction fl with
  | nil => simp
  | cons f fl' ih =>
    rw [List.foldl_cons]
    cases hdf : d f with
    | none => simpa [substStep, hdf] using ih
    | some v =>
      simp only [substStep, hdf]
      rw [replaceAll_not_contains h1]
      exact ih

theorem foldl_subst_congr {d1 d2 : Str → Option Str} :
    ∀ fl : List Str, (∀ f ∈ fl, d1 f = d2 f) → ∀ s : Str,
      fl.foldl (substStep d1) s = fl.foldl (substStep d2) s := by
  intro fl
  induction fl with
  | nil => simp
  | cons f fl' ih =>
    intro h s
    rw [List.foldl_cons, List.foldl_cons,
      show substStep d1 s f = substStep d2 s f by unfold substStep; rw [h f (by simp)]]
    exact ih (fun g hg => h g (List.mem_cons_of_mem _ hg)) _

theorem buildPattern_some {endpoint : Str} (h : '/' ∈ endpoint) :
    ∃ pat, buildPattern endpoint = some pat := by
  unfold buildPattern
  have h2 := two_le_splitOnChar_iff.mpr h
  rw [if_neg (by omega)]
  exact ⟨_, rfl⟩

theorem buildPattern_noSlash {endpoint : Str} (h : '/' ∉ endpoint) :
    buildPattern endpoint = none := by
  unfold buildPattern
  have h2 : ¬ 2 ≤ (splitOnChar '/' endpoint).length :=
    fun hh => h (two_le_splitOnChar_iff.mp hh)
  rw [if_pos (by omega)]

/-- C7: the fixed mount-segment position is an unvalidated precondition.
Both `ParsePath` and `PathParameters` write index 1 of the `/`-split of the
endpoint without a bounds check.  For every endpoint containing at least one
`/` the access is in range and neither function panics; for an endpoint with
no `/` the split has a single field, the index-1 access is out of bounds,
and both functions panic (modelled by `none` / `PPResult.panic`) instead of
returning an error. -/
theorem claim_C7 (mount vaultPath endpoint : Str) (d : Str → Option Str) :
    ((ParsePath mount endpoint d).isSome ↔ '/' ∈ endpoint) ∧
      (PathParameters endpoint vaultPath ≠ .panic ↔ '/' ∈ endpoint) := by
  constructor
  · constructor
    · intro h
      by_contra hn
      rw [ParsePath_noSlash hn] at h
      simp at h
    · intro h
      obtain ⟨f0, f1, rest, hsp⟩ := splitOnChar_two h
      rw [ParsePath_some (recomprise_eq mount hsp) d]
      simp
  · constructor
    · intro h
      by_contra hn
      apply h
      unfold PathParameters
      rw [buildPattern_noSlash hn]
    · intro h hcon
      obtain ⟨pat, hpat⟩ := buildPattern_some h
      unfold PathParameters at hcon
      rcases hc : regexpCompile pat with _ | items
      · simp only [hpat, hc] at hcon
        exact PPResult.noConfusion hcon
      · rcases hf : findStringSubmatch items vaultPath with _ | caps
        · by_cases hg : groupNames items = []
          · simp only [hpat, hc, hf, if_pos hg] at hcon
            exact PPResult.noConfusion hcon
          · simp only [hpat, hc, hf, if_neg hg] at hcon
            exact PPResult.noConfusion hcon
        · simp only [hpat, hc, hf] at hcon
          exact PPResult.noConfusion hcon

/-- C9 (amended): the templater's output depends on the field lookup only
through the fields of the `strings.FieldsFunc` extraction of the recomprised
path — which include the literal text runs between placeholders, not just
the brace-delimited placeholder names.  Two lookups agreeing on all those
runs produce the same resolved path.  (Agreement only on names occurring as
`{name}` tokens is not sufficient; see the counterexample.) -/
theorem claim_C9_amended (mount endpoint : Str) (d1 d2 : Str → Option Str)
    (h : ∀ rec, recomprise mount endpoint = some rec →
        ∀ f ∈ fieldsFunc braceDelim rec, d1 f = d2 f) :
    ParsePath mount endpoint d1 = ParsePath mount endpoint d2 := by
  rw [ParsePath_eq_foldl, ParsePath_eq_foldl]
  cases hr : recomprise mount endpoint with
  | none => rfl
  | some rec =>
    have hagree := h rec hr
    show some ((fieldsFunc braceDelim rec).foldl (substStep d1) rec) =
      some ((fieldsFunc braceDelim rec).foldl (substStep d2) rec)
    rw [foldl_subst_congr _ hagree]

/-- C5: the templater never fails, and placeholders whose name the field
lookup does not resolve survive verbatim.  For every endpoint containing a
`/` (the shape of every endpoint template), every mount path and every
lookup, `ParsePath` returns a string; and if `{n}` occurs in the recomprised
path and the lookup does not resolve `n`, then `{n}` still occurs verbatim
in the output.  The closing conjunct is the spec's concrete example: with an
empty lookup the template comes back unchanged. -/
theorem claim_C5 (mount endpoint : Str) (d : Str → Option Str) (n : Str)
    (hslash : '/' ∈ endpoint) (hn1 : '{' ∉ n) (hn2 : '}' ∉ n) (hd : d n = none) :
    (∃ out, ParsePath mount endpoint d = some out ∧
        ∀ rec, recomprise mount endpoint = some rec → tok n <:+: rec →
          tok n <:+: out) ∧
      ParsePath (str "transform") (str "/transform/role/{name}") (fun _ => none) =
        some (str "/transform/role/{name}") := by
  refine ⟨?_, by decide⟩
  obtain ⟨f0, f1, rest, hsp⟩ := splitOnChar_two hslash
  have hrec := recomprise_eq mount hsp
  refine ⟨_, ParsePath_some hrec d, ?_⟩
  intro rec h hinf
  rw [hrec] at h
  injection h with h
  subst h
  exact foldl_subst_survives hn1 hn2 d hd _ (fun f hf => fieldsFunc_mem hf) _ hinf

/-- C6: mount substitution and leading separator.  For every endpoint
containing a `/` and every well-formed mount path (non-empty, free of `/`,
`{`, `}`), `ParsePath` returns a path whose `/`-split has the empty leading
field and the mount path at index 1, and which starts with exactly one `/`
(the character after the leading `/` is not another `/`).  The closing
conjunct is the spec's concrete example. -/
theorem claim_C6 (mount endpoint : Str) (d : Str → Option Str)
    (hslash : '/' ∈ endpoint) (hm0 : mount ≠ []) (hmS : '/' ∉ mount)
    (hm1 : '{' ∉ mount) (hm2 : '}' ∉ mount) :
    (∃ out, ParsePath mount endpoint d = some out ∧
        (splitOnChar '/' out).get? 0 = some [] ∧
        (splitOnChar '/' out).get? 1 = some mount ∧
        ∃ c t, out = '/' :: c :: t ∧ c ≠ '/') ∧
      ParsePath (str "transform") (str "/transform/role/{name}")
          (fun f => if f = str "name" then some (str "my-role") else none) =
        some (str "/transform/role/my-role") := by
  refine ⟨?_, by decide⟩
  obtain ⟨f0, f1, rest, hsp⟩ := splitOnChar_two hslash
  have hrec := recomprise_eq mount hsp
  obtain ⟨m0, m', hm⟩ : ∃ m0 m', mount = m0 :: m' := by
    cases mount with
    | nil => exact absurd rfl hm0
    | cons a b => exact ⟨a, b, rfl⟩
  have hm0ne : m0 ≠ '/' := fun he => hmS (he ▸ (hm ▸ List.mem_cons_self m0 m'))
  cases rest with
  | nil =>
    have hrec' : recomprise mount endpoint = some ('/' :: mount) := by
      rw [hrec]
      rfl
    have hbf : '{' ∉ '/' :: mount := by
      intro hmem
      rcases List.mem_cons.mp hmem with hx | hx
      · exact absurd hx (by decide)
      · exact hm1 hx
    have hout := ParsePath_some hrec' d
    rw [foldl_subst_braceFree hbf] at hout
    refine ⟨'/' :: mount, hout, ?_, ?_, ?_⟩
    · rw [splitOnChar_cons_sep, splitOnChar_sepFree hmS]
      rfl
    · rw [splitOnChar_cons_sep, splitOnChar_sepFree hmS]
      rfl
    · exact ⟨m0, m', by rw [hm], hm0ne⟩
  | cons r0 rs =>
    have hrec' : recomprise mount endpoint =
        some (('/' :: mount ++ ['/']) ++ joinS (r0 :: rs)) := by
      rw [hrec, joinS_cons_of_ne_nil (by simp)]
      simp
    have hP : '{' ∉ '/' :: mount ++ ['/'] := by
      intro hmem
      rcases List.mem_cons.mp hmem with hx | hx
      · exact absurd hx (by decide)
      · rcases List.mem_append.mp hx with hx | hx
        · exact hm1 hx
        · simp at hx
    obtain ⟨r', hr'⟩ := foldl_subst_prefix hP d
      (fieldsFunc braceDelim (('/' :: mount ++ ['/']) ++ joinS (r0 :: rs)))
      (joinS (r0 :: rs))
    have hout := ParsePath_some hrec' d
    rw [hr'] at hout
    have hshape : ('/' :: mount ++ ['/']) ++ r' = '/' :: (mount ++ '/' :: r') := by
      simp
    rw [hshape] at hout
    refine ⟨_, hout, ?_, ?_, ?_⟩
    · rw [splitOnChar_cons_sep, splitOnChar_append_sep hmS]
      rfl
    · rw [splitOnChar_cons_sep, splitOnChar_append_sep hmS]
      rfl
    · refine ⟨m0, m' ++ '/' :: r', ?_, hm0ne⟩
      rw [hm]
      simp

/-! ## The counterexample to claim C9 as stated -/

/-- Agreement of two field lookups on every name that occurs as a
brace-delimited placeholder token `{n}` in the string `s`. -/
def placeholderAgree (d1 d2 : Str → Option Str) (s : Str) : Prop :=
  ∀ n : Str, n ≠ [] → '{' ∉ n → '}' ∉ n → tok n <:+: s → d1 n = d2 n

/-- All values produced by a field lookup are brace-free. -/
def braceFreeVals (d : Str → Option Str) : Prop :=
  ∀ n v, d n = some v → '{' ∉ v ∧ '}' ∉ v

/-- Claim C9 as stated: for every endpoint, mount, and pair of brace-free
field lookups that agree on all names occurring as placeholder tokens in the
recomprised path, the templater produces the same resolved path. -/
def noninterferenceClaim : Prop :=
  ∀ (mount endpoint : Str) (d1 d2 : Str → Option Str),
    braceFreeVals d1 → braceFreeVals d2 →
    (∀ rec, recomprise mount endpoint = some rec → placeholderAgree d1 d2 rec) →
    ParsePath mount endpoint d1 = ParsePath mount endpoint d2

/-- First lookup of the C9 counterexample. -/
def cexEnvOne : Str → Option Str := fun n =>
  if n = str "g" then some (str "val")
  else if n = str "z" then some (str "w")
  else if n = str "XvalY" then some (str "Z")
  else none

/-- Second lookup of the C9 counterexample: identical except that it does
not resolve the literal-run name `XvalY`. -/
def cexEnvTwo : Str → Option Str := fun n =>
  if n = str "g" then some (str "val")
  else if n = str "z" then some (str "w")
  else none

/-- C9 counterexample: the claim as stated is false.  With endpoint
`/d/{X{g}Y}XvalY{z}` and mount `m`, the recomprised path contains the token
`{g}` but not the token `{XvalY}`; the two lookups above are brace-free and
agree on every name occurring as a placeholder token (they differ only on
`XvalY`), yet substituting `val` for `{g}` manufactures the new token
`{XvalY}`, whose name is a later literal run of the field scan, so the first
lookup rewrites it while the second does not: the outputs are
`/m/ZXvalYw` versus `/m/{XvalY}XvalYw`. -/
theorem claim_C9_cex : ¬ noninterferenceClaim := by
  intro h
  have hbf1 : braceFreeVals cexEnvOne := by
    intro n v hv
    unfold cexEnvOne at hv
    split_ifs at hv with h1 h2 h3
    · injection hv with hv; subst hv; exact ⟨by decide, by decide⟩
    · injection hv with hv; subst hv; exact ⟨by decide, by decide⟩
    · injection hv with hv; subst hv; exact ⟨by decide, by decide⟩
  have hbf2 : braceFreeVals cexEnvTwo := by
    intro n v hv
    unfold cexEnvTwo at hv
    split_ifs at hv with h1 h2
    · injection hv with hv; subst hv; exact ⟨by decide, by decide⟩
    · injection hv with hv; subst hv; exact ⟨by decide, by decide⟩
  have hagree : ∀ rec, recomprise (str "m") (str "/d/{X{g}Y}XvalY{z}") = some rec →
      placeholderAgree cexEnvOne cexEnvTwo rec := by
    intro rec hrec
    have hrec' : rec = str "/m/{X{g}Y}XvalY{z}" := by
      have hc : recomprise (str "m") (str "/d/{X{g}Y}XvalY{z}") =
          some (str "/m/{X{g}Y}XvalY{z}") := by decide
      rw [hc] at hrec
      injection hrec with hrec
      exact hrec.symm
    subst hrec'
    intro n hne h1 h2 hinf
    by_cases hx : n = str "XvalY"
    · subst hx
      have hocc : occursIn (tok (str "XvalY")) (str "/m/{X{g}Y}XvalY{z}") = true :=
        occursIn_iff.mpr hinf
      exact absurd hocc (by decide)
    · by_cases hg : n = str "g"
      · simp [cexEnvOne, cexEnvTwo, hg]
      · by_cases hz : n = str "z"
        · simp [cexEnvOne, cexEnvTwo, hg, hz]
        · simp [cexEnvOne, cexEnvTwo, hg, hz, hx]
  have heq := h (str "m") (str "/d/{X{g}Y}XvalY{z}") cexEnvOne cexEnvTwo hbf1 hbf2 hagree
  exact absurd heq (by decide)

end VaultPath

namespace VaultToken

/-- C10 (amended): the renewal window of `tokenCheckLease` is degenerate.
With both clock reads modelled as the single instant `now`, the function
returns `true` exactly when `lease_started` is non-empty, parses to some
instant `started`, and `started` plus the `int64`-wrapped nanosecond
duration `wrap64 (duration * 10^9)` equals `now - 5min` — for fixed stored
state one single instant, so the renewal branch of `tokenRead`, guarded by
this function, can trigger at most at that instant.  An empty or unparsable
`lease_started` always yields `false`.  For durations whose nanosecond
product overflows `int64`, the wrapped expiry is not `started + duration`
seconds (see the counterexample). -/
theorem claim_C10_amended (parse : VaultPath.Str → Option Int) (now : Int)
    (startedStr : VaultPath.Str) (duration : Int) :
    tokenCheckLease parse now startedStr duration = true ↔
      (startedStr ≠ [] ∧ ∃ started, parse startedStr = some started ∧
        started + wrap64 (duration * nsPerSec) = now - fiveMinNs) := by
  unfold tokenCheckLease
  by_cases h0 : startedStr = []
  · simp [h0]
  · rw [if_neg h0]
    cases hp : parse startedStr with
    | none => simp [hp, h0]
    | some started =>
      show (if started + wrap64 (duration * nsPerSec) + fiveMinNs < now then false
        else if started + wrap64 (duration * nsPerSec) > now - fiveMinNs then false
        else true) = true ↔ _
      by_cases h1 : started + wrap64 (duration * nsPerSec) + fiveMinNs < now
      · rw [if_pos h1]
        simp only [Bool.false_eq_true, false_iff, not_and]
        intro _
        rintro ⟨st, hst, heq⟩
        injection hst with hst
        subst hst
        omega
      · rw [if_neg h1]
        by_cases h2 : started + wrap64 (duration * nsPerSec) > now - fiveMinNs
        · rw [if_pos h2]
          simp only [Bool.false_eq_true, false_iff, not_and]
          intro _
          rintro ⟨st, hst, heq⟩
          injection hst with hst
          subst hst
          omega
        · rw [if_neg h2]
          simp only [true_iff]
          exact ⟨h0, started, rfl, by omega⟩

/-- C10 counterexample: the claim identifies the lease expiry with
`started + duration` seconds, but Go computes the duration in nanoseconds
as `time.Second * time.Duration(duration)` in wrapping `int64` arithmetic.
With `duration = 2^55` seconds the product `2^55 * 10^9 = 1953125 * 2^64`
wraps to exactly `0`, so with `started = 0` and `now` five minutes past the
epoch the function returns `true`, although the unwrapped expiry
`started + duration * 10^9` is nowhere near `now - 5min`. -/
theorem claim_C10_cex :
    tokenCheckLease (fun s => if s = VaultPath.str "t" then some 0 else none)
        fiveMinNs (VaultPath.str "t") (2 ^ 55) = true ∧
      (0 : Int) + 2 ^ 55 * nsPerSec ≠ fiveMinNs - fiveMinNs :=
  ⟨by decide, by decide⟩

end VaultToken

namespace VaultPath

/-! ## Matcher lemmas -/

/-- Literal items for a run of characters. -/
def lits (L : Str) : List RItem := L.map .lit

/-- The minimal number of characters any successful match consumes. -/
def minLen : List RItem → Nat
  | [] => 0
  | .lit _ :: rest => minLen rest + 1
  | .group _ :: rest => minLen rest + 1

theorem mem_downFrom {k n : Nat} : k ∈ downFrom n ↔ 1 ≤ k ∧ k ≤ n := by
  induction n with
  | zero =>
    rw [downFrom]
    simp only [List.not_mem_nil, false_iff]
    omega
  | succ m ih =>
    simp only [downFrom, List.mem_cons, ih]
    omega

theorem firstSome_eq_of {α : Type} {f : Nat → Option α} {r : α} {k₀ : Nat} :
    ∀ n, 1 ≤ k₀ → k₀ ≤ n → f k₀ = some r →
      (∀ j, k₀ < j → j ≤ n → f j = none) →
      firstSome f (downFrom n) = some r := by
  intro n
  induction n with
  | zero => intro h1 h2 _ _; omega
  | succ m ih =>
    intro h1 h2 hk hnone
    rw [downFrom, firstSome]
    by_cases he : k₀ = m + 1
    · rw [← he, hk]
    · have hn := hnone (m + 1) (by omega) (Nat.le_refl _)
      rw [hn]
      exact ih h1 (by omega) hk (fun j hj1 hj2 => hnone j hj1 (by omega))

theorem firstSome_sound {α : Type} {f : Nat → Option α} {r : α} :
    ∀ n, firstSome f (downFrom n) = some r →
      ∃ k, 1 ≤ k ∧ k ≤ n ∧ f k = some r := by
  intro n
  induction n with
  | zero => intro h; rw [downFrom, firstSome] at h; exact Option.noConfusion h
  | succ m ih =>
    intro h
    rw [downFrom, firstSome] at h
    cases hf : f (m + 1) with
    | some res =>
      rw [hf] at h
      injection h with h
      exact ⟨m + 1, by omega, Nat.le_refl _, by rw [hf, h]⟩
    | none =>
      rw [hf] at h
      obtain ⟨k, hk1, hk2, hk3⟩ := ih h
      exact ⟨k, hk1, by omega, hk3⟩

theorem matchItems_nil_items (s : Str) : matchItems [] s = some [] := rfl

theorem matchItems_lit_nil (c : Char) (rest : List RItem) :
    matchItems (.lit c :: rest) [] = none := rfl

theorem matchItems_lit_cons (c : Char) (rest : List RItem) (x : Char) (xs : Str) :
    matchItems (.lit c :: rest) (x :: xs) =
      if x = c then matchItems rest xs else none := rfl

theorem matchItems_group (n : Str) (rest : List RItem) (s : Str) :
    matchItems (.group n :: rest) s =
      firstSome
        (fun k =>
          if '\n' ∈ s.take k then none
          else (matchItems rest (s.drop k)).map ((n, s.take k) :: ·))
        (downFrom s.length) := rfl

theorem matchItems_lits_append (L : Str) (items : List RItem) (s : Str) :
    matchItems (lits L ++ items) (L ++ s) = matchItems items s := by
  induction L with
  | nil => simp [lits]
  | cons c L' ih =>
    show matchItems (.lit c :: (lits L' ++ items)) (c :: (L' ++ s)) = _
    rw [matchItems_lit_cons, if_pos rfl]
    exact ih

theorem matchItems_lits_not_prefix {L : Str} {s : Str} (h : ¬ L <+: s)
    (items : List RItem) : matchItems (lits L ++ items) s = none := by
  induction L generalizing s with
  | nil => exact absurd List.nil_prefix h
  | cons c L' ih =>
    cases s with
    | nil => exact matchItems_lit_nil c _
    | cons x xs =>
      show matchItems (.lit c :: (lits L' ++ items)) (x :: xs) = none
      rw [matchItems_lit_cons]
      by_cases hx : x = c
      · subst hx
        exact if_pos rfl ▸ ih (fun hp => h (List.cons_prefix_cons.mpr ⟨rfl, hp⟩))
      · exact if_neg hx

theorem matchItems_some_minLen {items : List RItem} :
    ∀ {s : Str} {caps}, matchItems items s = some caps → minLen items ≤ s.length := by
  induction items with
  | nil => intro s caps _; simp [minLen]
  | cons item rest ih =>
    intro s caps h
    cases item with
    | lit c =>
      cases s with
      | nil => exact absurd h (by rw [matchItems_lit_nil]; simp)
      | cons x xs =>
        rw [matchItems_lit_cons] at h
        by_cases hx : x = c
        · rw [if_pos hx] at h
          have := ih h
          simp only [minLen, List.length_cons]
          omega
        · rw [if_neg hx] at h
          exact Option.noConfusion h
    | group n =>
      rw [matchItems_group] at h
      obtain ⟨k, hk1, hk2, hk3⟩ := firstSome_sound _ h
      by_cases hnl : '\n' ∈ s.take k
      · rw [if_pos hnl] at hk3; exact Option.noConfusion hk3
      · rw [if_neg hnl] at hk3
        obtain ⟨caps', hc', -⟩ := Option.map_eq_some'.mp hk3
        have := ih hc'
        simp only [List.length_drop] at this
        simp only [minLen]
        omega

theorem matchItems_none_of_short {items : List RItem} {s : Str}
    (h : s.length < minLen items) : matchItems items s = none := by
  cases hm : matchItems items s with
  | none => rfl
  | some caps => exact absurd (matchItems_some_minLen hm) (by omega)

theorem minLen_lits_append (L : Str) (items : List RItem) :
    minLen (lits L ++ items) = L.length + minLen items := by
  induction L with
  | nil => simp [lits]
  | cons c L' ih =>
    show minLen (.lit c :: (lits L' ++ items)) = _
    rw [minLen, ih]
    simp only [List.length_cons]
    omega

theorem matchItems_sound {items : List RItem} :
    ∀ {s : Str} {caps}, matchItems items s = some caps →
      caps.map Prod.fst = groupNames items ∧ ∀ pr ∈ caps, pr.2 ≠ [] := by
  induction items with
  | nil =>
    intro s caps h
    rw [matchItems_nil_items] at h
    injection h with h
    subst h
    simp [groupNames]
  | cons item rest ih =>
    intro s caps h
    cases item with
    | lit c =>
      cases s with
      | nil => exact absurd h (by rw [matchItems_lit_nil]; simp)
      | cons x xs =>
        rw [matchItems_lit_cons] at h
        by_cases hx : x = c
        · rw [if_pos hx] at h
          simpa [groupNames] using ih h
        · rw [if_neg hx] at h
          exact Option.noConfusion h
    | group n =>
      rw [matchItems_group] at h
      obtain ⟨k, hk1, hk2, hk3⟩ := firstSome_sound _ h
      by_cases hnl : '\n' ∈ s.take k
      · rw [if_pos hnl] at hk3; exact Option.noConfusion hk3
      · rw [if_neg hnl] at hk3
        obtain ⟨caps', hc', hmap⟩ := Option.map_eq_some'.mp hk3
        obtain ⟨ih1, ih2⟩ := ih hc'
        subst hmap
        constructor
        · simp [groupNames, ih1]
        · intro pr hpr
          rcases List.mem_cons.mp hpr with hpr | hpr
          · subst hpr
            intro he
            have he' : s.take k = [] := he
            have hlen : (s.take k).length = k := by
              rw [List.length_take]
              omega
            rw [he'] at hlen
            simp at hlen
            omega
          · exact ih2 pr hpr

theorem findStringSubmatch_of_zero {items : List RItem} {s : Str} {caps}
    (h : matchItems items s = some caps) :
    findStringSubmatch items s = some caps := by
  cases s with
  | nil => rw [findStringSubmatch, h]
  | cons c s' =>
    rw [findStringSubmatch, h]

theorem findStringSubmatch_shift {items : List RItem} {c : Char} {s : Str}
    (h : matchItems items (c :: s) = none) :
    findStringSubmatch items (c :: s) = findStringSubmatch items s := by
  rw [findStringSubmatch, h]

theorem findStringSubmatch_sound {items : List RItem} :
    ∀ {s : Str} {caps}, findStringSubmatch items s = some caps →
      ∃ s', s' <:+ s ∧ matchItems items s' = some caps := by
  intro s
  induction s with
  | nil =>
    intro caps h
    rw [findStringSubmatch] at h
    exact ⟨[], List.suffix_refl _, h⟩
  | cons c s' ih =>
    intro caps h
    rw [findStringSubmatch] at h
    cases hm : matchItems items (c :: s') with
    | some r =>
      rw [hm] at h
      injection h with h
      subst h
      exact ⟨c :: s', List.suffix_refl _, hm⟩
    | none =>
      rw [hm] at h
      obtain ⟨t, ht1, ht2⟩ := ih h
      exact ⟨t, ht1.trans (List.suffix_cons c s'), ht2⟩

/-- The greedy characterization: a `.+` group captures the longest feasible
newline-free prefix after which the rest of the pattern matches. -/
theorem matchItems_group_eq {n : Str} {rest : List RItem} {s : Str} {k₀ : Nat}
    {caps : List (Str × Str)}
    (h1 : 1 ≤ k₀) (h2 : k₀ ≤ s.length) (h3 : '\n' ∉ s.take k₀)
    (h4 : matchItems rest (s.drop k₀) = some caps)
    (h5 : ∀ j, k₀ < j → j ≤ s.length → matchItems rest (s.drop j) = none) :
    matchItems (.group n :: rest) s = some ((n, s.take k₀) :: caps) := by
  rw [matchItems_group]
  apply firstSome_eq_of s.length h1 h2
  · rw [if_neg h3, h4]
    rfl
  · intro j hj1 hj2
    by_cases hnl : '\n' ∈ s.take j
    · rw [if_pos hnl]
    · rw [if_neg hnl, h5 j hj1 hj2]
      rfl

/-! ## Parser composition lemmas -/

theorem parseItemsF_fuel :
    ∀ fuel₁ fuel₂ (s : Str), s.length ≤ fuel₁ → s.length ≤ fuel₂ →
      parseItemsF fuel₁ s = parseItemsF fuel₂ s := by
  intro fuel₁
  induction fuel₁ with
  | zero =>
    intro fuel₂ s h1 _
    rw [List.length_eq_zero.mp (Nat.le_zero.mp h1)]
    cases fuel₂ <;> rfl
  | succ f ih =>
    intro fuel₂ s h1 h2
    cases s with
    | nil => cases fuel₂ <;> rfl
    | cons c rest =>
      cases fuel₂ with
      | zero => simp at h2
      | succ f₂ =>
        simp only [List.length_cons, Nat.succ_le_succ_iff] at h1 h2
        simp only [parseItemsF]
        by_cases hc : c = '('
        · rw [if_pos hc, if_pos hc]
          split
          · rename_i rest2
            split
            · rename_i rest3 heq
              have hlen3 : rest3.length ≤ f ∧ rest3.length ≤ f₂ := by
                have := congrArg List.length heq
                simp only [List.length_drop, List.length_cons] at this h1 h2
                constructor <;> omega
              by_cases hemp : rest2.takeWhile wordChar = []
              · rw [if_pos hemp, if_pos hemp]
              · rw [if_neg hemp, if_neg hemp, ih f₂ rest3 hlen3.1 hlen3.2]
            · rfl
          · rfl
        · rw [if_neg hc, if_neg hc]
          by_cases hm : metaChar c = true
          · rw [if_pos hm, if_pos hm]
          · rw [if_neg hm, if_neg hm, ih f₂ rest h1 h2]

theorem parseItemsF_as_parseItems {fuel : Nat} {s : Str} (h : s.length ≤ fuel) :
    parseItemsF fuel s = parseItems s := parseItemsF_fuel fuel s.length s h (Nat.le_refl _)

theorem parseItems_nil : parseItems [] = some [] := rfl

theorem parseItems_lit {c : Char} (h : metaChar c = false) (rest : Str) :
    parseItems (c :: rest) = (parseItems rest).map (.lit c :: ·) := by
  have hc : c ≠ '(' := by
    intro he
    rw [he] at h
    exact absurd h (by decide)
  show parseItemsF (rest.length + 1) (c :: rest) = _
  simp only [parseItemsF]
  rw [if_neg hc, if_neg (by simp [h])]
  rfl

theorem takeWhile_run {p : Char → Bool} {n : Str} (hn : ∀ c ∈ n, p c = true)
    {b : Char} (hb : p b = false) (t : Str) :
    (n ++ b :: t).takeWhile p = n := by
  induction n with
  | nil => simp [List.takeWhile_cons, hb]
  | cons a as ih =>
    have ha := hn a (by simp)
    simp [List.takeWhile_cons, ha,
      ih (fun c hc => hn c (List.mem_cons_of_mem _ hc))]

theorem parseItemsF_group (fuel : Nat) {n : Str} (hn : n ≠ [])
    (hw : ∀ c ∈ n, wordChar c = true) (r : Str) :
    parseItemsF (fuel + 1) ('(' :: '?' :: 'P' :: '<' :: (n ++ '>' :: '.' :: '+' :: ')' :: r)) =
      (parseItemsF fuel r).map (.group n :: ·) := by
  simp only [parseItemsF]
  rw [if_pos trivial, takeWhile_run hw (by decide), List.drop_left]
  show (if n = [] then none
      else Option.map (fun x => RItem.group n :: x) (parseItemsF fuel r)) =
    Option.map (fun x => RItem.group n :: x) (parseItemsF fuel r)
  rw [if_neg hn]

theorem parseItems_group {n : Str} (hn : n ≠ []) (hw : ∀ c ∈ n, wordChar c = true)
    (r : Str) :
    parseItems (str "(?P<" ++ n ++ str ">.+)" ++ r) =
      (parseItems r).map (.group n :: ·) := by
  have hshape : str "(?P<" ++ n ++ str ">.+)" ++ r =
      '(' :: '?' :: 'P' :: '<' :: (n ++ '>' :: '.' :: '+' :: ')' :: r) := by
    simp [str]
  rw [hshape]
  show parseItemsF ('(' :: '?' :: 'P' :: '<' :: (n ++ '>' :: '.' :: '+' :: ')' :: r)).length
    ('(' :: '?' :: 'P' :: '<' :: (n ++ '>' :: '.' :: '+' :: ')' :: r)) = _
  rw [show ('(' :: '?' :: 'P' :: '<' :: (n ++ '>' :: '.' :: '+' :: ')' :: r)).length =
      ((n ++ '>' :: '.' :: '+' :: ')' :: r).length + 3) + 1 by
    simp only [List.length_cons]]
  rw [parseItemsF_group _ hn hw r]
  rw [parseItemsF_as_parseItems (by simp only [List.length_append, List.length_cons]; omega)]

theorem parseItems_lits_append {L : Str} (hL : ∀ c ∈ L, metaChar c = false) (r : Str) :
    parseItems (L ++ r) = (parseItems r).map (lits L ++ ·) := by
  induction L with
  | nil =>
    rw [List.nil_append]
    cases h : parseItems r <;> simp [h, lits]
  | cons c L' ih =>
    rw [List.cons_append, parseItems_lit (hL c (by simp)),
      ih (fun x hx => hL x (List.mem_cons_of_mem _ hx))]
    cases h : parseItems r <;> simp [h, lits]

/-! ## Structural endpoint templates

The documented endpoint-template grammar: segments separated by `/`, each
segment a literal or a `{name}` placeholder.  `safeSeg` captures the
segments actually used by templates in this system: literal characters that
are not regexp metacharacters (and, being split fields, contain no `/`),
and placeholder names made of word characters. -/

/-- A segment of an endpoint template: a literal or a placeholder. -/
inductive Seg where
  | lit (s : Str)
  | ph (name : Str)

/-- The text of a segment inside the endpoint template string. -/
def segStr : Seg → Str
  | .lit s => s
  | .ph n => tok n

/-- The endpoint template string of a segment list. -/
def templateStr (segs : List Seg) : Str := joinS (segs.map segStr)

/-- The pattern text of a `(?P<n>.+)` group. -/
def grpStr (n : Str) : Str := str "(?P<" ++ n ++ str ">.+)"

/-- The pattern text a segment contributes. -/
def regexSegStr : Seg → Str
  | .lit s => s
  | .ph n => grpStr n

/-- The compiled items a segment contributes. -/
def regItems : Seg → List RItem
  | .lit s => lits s
  | .ph n => [.group n]

/-- Well-formedness of a segment per the documented grammar with
regexp-safe literal characters and word-character placeholder names. -/
def safeSeg : Seg → Bool
  | .lit s => s.all (fun c => !metaChar c && !(c == '/'))
  | .ph n => !n.isEmpty && n.all wordChar

/-- The placeholder names of a segment list, in order. -/
def segNames : List Seg → List Str
  | [] => []
  | .lit _ :: rest => segNames rest
  | .ph n :: rest => n :: segNames rest

/-- The compiled items of the pattern tail after the mount-position field:
a `/` then the segment's items, for each remaining segment. -/
def itemsTail (rest : List Seg) : List RItem :=
  rest.foldr (fun sg acc => .lit '/' :: (regItems sg ++ acc)) []

/-- The compiled items of the whole pattern of a template. -/
def itemsOf (seg₀ : Seg) (rest : List Seg) : List RItem :=
  regItems seg₀ ++ .lit '/' :: .group (str "path") :: itemsTail rest

theorem safeSeg_lit_iff {s : Str} :
    safeSeg (.lit s) = true ↔ ∀ c ∈ s, metaChar c = false ∧ c ≠ '/' := by
  simp [safeSeg, List.all_eq_true]

theorem safeSeg_ph_iff {n : Str} :
    safeSeg (.ph n) = true ↔ n ≠ [] ∧ ∀ c ∈ n, wordChar c = true := by
  simp [safeSeg, List.all_eq_true, List.isEmpty_iff]

theorem segStr_slashFree {sg : Seg} (h : safeSeg sg = true) : '/' ∉ segStr sg := by
  cases sg with
  | lit s =>
    intro hmem
    exact ((safeSeg_lit_iff.mp h) _ hmem).2 rfl
  | ph n =>
    intro hmem
    obtain ⟨-, hw⟩ := safeSeg_ph_iff.mp h
    simp only [segStr, tok] at hmem
    rcases List.mem_cons.mp hmem with h1 | h1
    · exact absurd h1 (by decide)
    · rcases List.mem_append.mp h1 with h2 | h2
      · exact absurd (hw _ h2) (by decide)
      · simp at h2

theorem regexifyField_lit {s : Str} (h : '{' ∉ s) : regexifyField s = s := by
  unfold regexifyField
  rw [if_neg ?hneg]
  case hneg =>
    intro hp
    obtain ⟨t, ht⟩ := isPre_iff.mp hp
    apply h
    rw [← ht]
    exact List.mem_append.mpr (Or.inl (by simp [str]))

theorem regexifyField_ph {n : Str} (h1 : '{' ∉ n) (h2 : '}' ∉ n) :
    regexifyField (tok n) = grpStr n := by
  unfold regexifyField
  rw [if_pos (by simp [isPre, tok, str])]
  have step1 : replaceAll '{' [] (str "(?P<") (tok n) = str "(?P<" ++ (n ++ ['}']) := by
    rw [show tok n = '{' :: [] ++ (n ++ ['}']) by simp [tok], replaceAll_cons_hit,
      replaceAll_not_contains (by simp [h1])]
  rw [step1]
  have hX : '}' ∉ str "(?P<" ++ n := by
    intro hmem
    rcases List.mem_append.mp hmem with hx | hx
    · simp [str] at hx
    · exact h2 hx
  rw [show str "(?P<" ++ (n ++ ['}']) = (str "(?P<" ++ n) ++ ('}' :: [] ++ []) by simp,
    replaceAll_append_free hX, replaceAll_cons_hit, replaceAll_nil]
  simp [grpStr]

theorem regexifyField_seg {sg : Seg} (h : safeSeg sg = true) :
    regexifyField (segStr sg) = regexSegStr sg := by
  cases sg with
  | lit s =>
    refine regexifyField_lit ?_
    intro hmem
    have := (safeSeg_lit_iff.mp h) _ hmem
    exact absurd this.1 (by decide)
  | ph n =>
    obtain ⟨-, hw⟩ := safeSeg_ph_iff.mp h
    exact regexifyField_ph
      (fun hmem => absurd (hw _ hmem) (by decide))
      (fun hmem => absurd (hw _ hmem) (by decide))

theorem buildPattern_template {seg₀ seg₁ : Seg} {rest : List Seg}
    (h₀ : safeSeg seg₀ = true) (h₁ : safeSeg seg₁ = true)
    (hr : ∀ sg ∈ rest, safeSeg sg = true) :
    buildPattern (templateStr (seg₀ :: seg₁ :: rest)) =
      some (regexSegStr seg₀ ++ '/' :: grpStr (str "path") ++
        slashPre (rest.map regexSegStr)) := by
  unfold buildPattern templateStr
  have hall : ∀ f ∈ (seg₀ :: seg₁ :: rest).map segStr, '/' ∉ f := by
    intro f hf
    obtain ⟨sg, hsg, he⟩ := List.mem_map.mp hf
    subst he
    rcases List.mem_cons.mp hsg with h | hsg
    · subst h; exact segStr_slashFree h₀
    · rcases List.mem_cons.mp hsg with h | hsg
      · subst h; exact segStr_slashFree h₁
      · exact segStr_slashFree (hr _ hsg)
  rw [splitOnChar_joinS (by simp) hall]
  rw [if_neg (by simp)]
  show some (joinS (((segStr seg₀ :: segStr seg₁ :: rest.map segStr).set 1
      (str "{path}")).map regexifyField)) = _
  rw [show (segStr seg₀ :: segStr seg₁ :: rest.map segStr).set 1 (str "{path}") =
      segStr seg₀ :: str "{path}" :: rest.map segStr by rfl]
  rw [List.map_cons, List.map_cons, regexifyField_seg h₀,
    show regexifyField (str "{path}") = grpStr (str "path") by decide,
    List.map_map,
    show List.map (regexifyField ∘ segStr) rest = List.map regexSegStr rest from
      List.map_congr_left (fun sg hsg => regexifyField_seg (hr sg hsg))]
  rw [joinS_cons_of_ne_nil (by simp), joinS_cons_slashPre]
  simp

theorem parseItems_seg_append {sg : Seg} (h : safeSeg sg = true) (r : Str) :
    parseItems (regexSegStr sg ++ r) = (parseItems r).map (regItems sg ++ ·) := by
  cases sg with
  | lit s => exact parseItems_lits_append (fun c hc => ((safeSeg_lit_iff.mp h) c hc).1) r
  | ph n =>
    obtain ⟨hne, hw⟩ := safeSeg_ph_iff.mp h
    show parseItems ((str "(?P<" ++ n ++ str ">.+)") ++ r) = _
    rw [show (str "(?P<" ++ n ++ str ">.+)") ++ r = str "(?P<" ++ n ++ str ">.+)" ++ r by
      simp]
    rw [parseItems_group hne hw r]
    rfl

theorem parseItems_itemsTail {rest : List Seg} (h : ∀ sg ∈ rest, safeSeg sg = true) :
    parseItems (slashPre (rest.map regexSegStr)) = some (itemsTail rest) := by
  induction rest with
  | nil => rfl
  | cons sg rest' ih =>
    show parseItems ('/' :: (regexSegStr sg ++ slashPre (rest'.map regexSegStr))) = _
    rw [parseItems_lit (by decide), parseItems_seg_append (h sg (by simp)),
      ih (fun g hg => h g (List.mem_cons_of_mem _ hg))]
    rfl

theorem groupNames_append (a b : List RItem) :
    groupNames (a ++ b) = groupNames a ++ groupNames b := by
  induction a with
  | nil => simp [groupNames]
  | cons item rest ih =>
    cases item with
    | lit c => simpa [groupNames] using ih
    | group n => simpa [groupNames] using ih

theorem groupNames_lits (L : Str) : groupNames (lits L) = [] := by
  induction L with
  | nil => rfl
  | cons c L' ih => simpa [lits, groupNames] using ih

theorem groupNames_regItems (sg : Seg) : groupNames (regItems sg) = segNames [sg] := by
  cases sg with
  | lit s => simp [regItems, groupNames_lits, segNames]
  | ph n => simp [regItems, groupNames, segNames]

theorem groupNames_itemsTail (rest : List Seg) :
    groupNames (itemsTail rest) = segNames rest := by
  induction rest with
  | nil => rfl
  | cons sg rest' ih =>
    show groupNames (.lit '/' :: (regItems sg ++ itemsTail rest')) = _
    rw [groupNames, groupNames_append, ih, groupNames_regItems]
    cases sg with
    | lit s => simp [segNames]
    | ph n => simp [segNames]

theorem groupNames_itemsOf (seg₀ : Seg) (rest : List Seg) :
    groupNames (itemsOf seg₀ rest) = segNames [seg₀] ++ str "path" :: segNames rest := by
  unfold itemsOf
  rw [groupNames_append, groupNames_regItems]
  congr 1
  rw [groupNames, groupNames, groupNames_itemsTail]

theorem regexpCompile_template {seg₀ : Seg} {rest : List Seg}
    (h₀ : safeSeg seg₀ = true) (hr : ∀ sg ∈ rest, safeSeg sg = true)
    (hnd : (segNames [seg₀] ++ str "path" :: segNames rest).Nodup) :
    regexpCompile (regexSegStr seg₀ ++ '/' :: grpStr (str "path") ++
        slashPre (rest.map regexSegStr)) = some (itemsOf seg₀ rest) := by
  unfold regexpCompile
  have hparse : parseItems (regexSegStr seg₀ ++ '/' :: grpStr (str "path") ++
      slashPre (rest.map regexSegStr)) = some (itemsOf seg₀ rest) := by
    rw [show regexSegStr seg₀ ++ '/' :: grpStr (str "path") ++
        slashPre (rest.map regexSegStr) =
        regexSegStr seg₀ ++ ('/' :: (regexSegStr (.ph (str "path")) ++
          slashPre (rest.map regexSegStr))) by simp [regexSegStr]]
    rw [parseItems_seg_append h₀, parseItems_lit (by decide),
      parseItems_seg_append (show safeSeg (Seg.ph (str "path")) = true by decide),
      parseItems_itemsTail hr]
    rfl
  rw [hparse]
  show (if (groupNames (itemsOf seg₀ rest)).Nodup then some (itemsOf seg₀ rest)
    else none) = some (itemsOf seg₀ rest)
  rw [if_pos (by rw [groupNames_itemsOf]; exact hnd)]

/-- C4 (amended): for endpoint templates in the documented grammar whose
literal segments use no regexp metacharacters and whose placeholder names
are non-empty words of `[A-Za-z0-9_]`, pairwise distinct and distinct from
the injected name `path`, the built pattern always compiles: the result is
never the compile error (and never the index panic) — only a parameter map
or the parse error remain. -/
theorem claim_C4_amended (vaultPath : Str) (seg₀ seg₁ : Seg) (rest : List Seg)
    (h₀ : safeSeg seg₀ = true) (h₁ : safeSeg seg₁ = true)
    (hr : ∀ sg ∈ rest, safeSeg sg = true)
    (hnd : (segNames [seg₀] ++ str "path" :: segNames rest).Nodup) :
    PathParameters (templateStr (seg₀ :: seg₁ :: rest)) vaultPath ≠ .panic ∧
      PathParameters (templateStr (seg₀ :: seg₁ :: rest)) vaultPath ≠ .compileErr := by
  have hres : PathParameters (templateStr (seg₀ :: seg₁ :: rest)) vaultPath =
      (match findStringSubmatch (itemsOf seg₀ rest) vaultPath with
       | none => if groupNames (itemsOf seg₀ rest) = [] then PPResult.ok []
                 else PPResult.parseErr
       | some params => PPResult.ok params) := by
    unfold PathParameters
    rw [buildPattern_template h₀ h₁ hr]
    show (match regexpCompile (regexSegStr seg₀ ++ '/' :: grpStr (str "path") ++
        slashPre (rest.map regexSegStr)) with
      | none => PPResult.compileErr
      | some items =>
        match findStringSubmatch items vaultPath with
        | none => if groupNames items = [] then PPResult.ok [] else PPResult.parseErr
        | some params => PPResult.ok params) = _
    rw [regexpCompile_template h₀ hr hnd]
  rw [hres]
  rcases hf : findStringSubmatch (itemsOf seg₀ rest) vaultPath with _ | caps
  · by_cases hg : groupNames (itemsOf seg₀ rest) = []
    · simp [hg]
    · simp [hg]
  · simp

/-- Whenever the fragment model of `PathParameters` succeeds, every value
in the returned parameter map is a non-empty string (each named `.+`
capture consumes at least one character) and the keys are pairwise distinct
(the compile step rejects duplicate capture-group names). -/
theorem PathParameters_ok_props (endpoint vaultPath : Str) (m : List (Str × Str))
    (hok : PathParameters endpoint vaultPath = .ok m) :
    (∀ pr ∈ m, pr.2 ≠ []) ∧ (m.map Prod.fst).Nodup := by
  unfold PathParameters at hok
  rcases hb : buildPattern endpoint with _ | pat
  · simp only [hb] at hok
    exact PPResult.noConfusion hok
  · simp only [hb] at hok
    rcases hc : regexpCompile pat with _ | items
    · simp only [hc] at hok
      exact PPResult.noConfusion hok
    · simp only [hc] at hok
      have hnd : (groupNames items).Nodup := by
        unfold regexpCompile at hc
        rcases hp : parseItems pat with _ | its
        · simp only [hp] at hc
          exact Option.noConfusion hc
        · simp only [hp] at hc
          by_cases hn : (groupNames its).Nodup
          · rw [if_pos hn] at hc
            injection hc with hc
            subst hc
            exact hn
          · rw [if_neg hn] at hc
            exact Option.noConfusion hc
      rcases hf : findStringSubmatch items vaultPath with _ | caps
      · simp only [hf] at hok
        by_cases hg : groupNames items = []
        · rw [if_pos hg] at hok
          injection hok with hok
          subst hok
          simp
        · rw [if_neg hg] at hok
          exact PPResult.noConfusion hok
      · simp only [hf] at hok
        injection hok with hok
        subst hok
        obtain ⟨s', -, hm⟩ := findStringSubmatch_sound hf
        obtain ⟨hmap, hvals⟩ := matchItems_sound hm
        exact ⟨hvals, hmap ▸ hnd⟩

/-- C8 (amended): for endpoint templates of the documented grammar with
regexp-safe literal segments and word-character placeholder names — the
fragment on which the built pattern has no alternation and every named
group participates in any match — whenever `PathParameters` succeeds, every
value in the returned parameter map is a non-empty string and the keys are
pairwise distinct. -/
theorem claim_C8_amended (vaultPath : Str) (seg₀ seg₁ : Seg) (rest : List Seg)
    (h₀ : safeSeg seg₀ = true) (h₁ : safeSeg seg₁ = true)
    (hr : ∀ sg ∈ rest, safeSeg sg = true) (m : List (Str × Str))
    (hok : PathParameters (templateStr (seg₀ :: seg₁ :: rest)) vaultPath = .ok m) :
    (∀ pr ∈ m, pr.2 ≠ []) ∧ (m.map Prod.fst).Nodup :=
  PathParameters_ok_props _ _ m hok

/-- C2 counterexample: on the concrete path of the claim, given without a
leading `/`, `PathParameters("/transform/role/{name}", "transform/role/my-role")`
returns the parse error, not a parameter map: the built pattern
`/(?P<path>.+)/role/(?P<name>.+)` starts with a literal `/` and matches no
substring of the slash-less path. -/
theorem claim_C2_cex :
    PathParameters (str "/transform/role/{name}") (str "transform/role/my-role") =
      .parseErr := by decide

/-- C2 (amended): with the concrete path carrying its leading `/`,
extraction succeeds and returns exactly the map with the mount segment
under the fixed key `path` and the role name under `name`. -/
theorem claim_C2_amended :
    PathParameters (str "/transform/role/{name}") (str "/transform/role/my-role") =
      .ok [(str "path", str "transform"), (str "name", str "my-role")] := by decide

/-- C3 counterexample: the extractor's match is not anchored.  On the path
`xx/transform/role/my-role` the compiled pattern of
`/transform/role/{name}` does not match at position 0 (so the whole string
does not match the pattern), yet `PathParameters` succeeds by matching the
proper substring starting after `xx`: the claim that extraction succeeds
only when the entire path matches is false. -/
theorem claim_C3_cex :
    buildPattern (str "/transform/role/{name}") =
        some (str "/(?P<path>.+)/role/(?P<name>.+)") ∧
      regexpCompile (str "/(?P<path>.+)/role/(?P<name>.+)") =
        some (.lit '/' :: .group (str "path") :: lits (str "/role/") ++
          [.group (str "name")]) ∧
      matchItems (.lit '/' :: .group (str "path") :: lits (str "/role/") ++
          [.group (str "name")]) (str "xx/transform/role/my-role") = none ∧
      PathParameters (str "/transform/role/{name}") (str "xx/transform/role/my-role") =
        .ok [(str "path", str "transform"), (str "name", str "my-role")] :=
  ⟨by decide, by decide, by decide, by decide⟩

theorem buildPattern_slash (e' : Str) :
    ∃ P, buildPattern ('/' :: e') = some ('/' :: P) := by
  unfold buildPattern
  rw [splitOnChar_cons_sep]
  obtain ⟨t0, ts, hts⟩ : ∃ t0 ts, splitOnChar '/' e' = t0 :: ts := by
    rcases h : splitOnChar '/' e' with _ | ⟨a, b⟩
    · exact absurd h (splitOnChar_ne_nil _ _)
    · exact ⟨a, b, rfl⟩
  rw [hts]
  rw [if_neg (by simp)]
  refine ⟨joinS ((str "{path}" :: ts).map regexifyField), ?_⟩
  show some (joinS ((([] :: t0 :: ts).set 1 (str "{path}")).map regexifyField)) = _
  rw [show ([] :: t0 :: ts).set 1 (str "{path}") = [] :: str "{path}" :: ts by rfl]
  rw [List.map_cons]
  rw [show regexifyField [] = [] by decide]
  rw [show joinS ([] :: (str "{path}" :: ts).map regexifyField) =
    [] ++ '/' :: joinS ((str "{path}" :: ts).map regexifyField) from
      joinS_cons_of_ne_nil (by simp)]
  rfl

/-- C3 (amended): the extractor performs an unanchored leftmost substring
search.  For endpoint templates of the documented grammar (leading empty
segment, then literal or `{name}` segments with regexp-safe literals,
word-character placeholder names and no duplicate names — the fragment on
which the regexp model is faithful to Go), prepending any non-`/` character
to the concrete path leaves the result of `PathParameters` unchanged: the
compiled pattern starts with a literal `/`, so no match can start at the
prepended character, and extra leading material before the leftmost match
is simply skipped. -/
theorem claim_C3_amended (p : Str) (c : Char) (seg₁ : Seg) (rest : List Seg)
    (h₁ : safeSeg seg₁ = true) (hr : ∀ sg ∈ rest, safeSeg sg = true)
    (hnd : (str "path" :: segNames rest).Nodup) (hc : c ≠ '/') :
    PathParameters (templateStr (.lit [] :: seg₁ :: rest)) (c :: p) =
      PathParameters (templateStr (.lit [] :: seg₁ :: rest)) p := by
  have h₀ : safeSeg (.lit []) = true := rfl
  have hnd' : (segNames [Seg.lit []] ++ str "path" :: segNames rest).Nodup := hnd
  have hres : ∀ s, PathParameters (templateStr (.lit [] :: seg₁ :: rest)) s =
      (match findStringSubmatch (itemsOf (.lit []) rest) s with
       | none => if groupNames (itemsOf (.lit []) rest) = [] then PPResult.ok []
                 else PPResult.parseErr
       | some params => PPResult.ok params) := by
    intro s
    unfold PathParameters
    rw [buildPattern_template h₀ h₁ hr]
    show (match regexpCompile (regexSegStr (Seg.lit []) ++ '/' :: grpStr (str "path") ++
        slashPre (rest.map regexSegStr)) with
      | none => PPResult.compileErr
      | some items =>
        match findStringSubmatch items s with
        | none => if groupNames items = [] then PPResult.ok [] else PPResult.parseErr
        | some params => PPResult.ok params) = _
    rw [regexpCompile_template h₀ hr hnd']
  have hnone : matchItems (itemsOf (Seg.lit []) rest) (c :: p) = none := by
    show matchItems (RItem.lit '/' :: (RItem.group (str "path") :: itemsTail rest))
      (c :: p) = none
    rw [matchItems_lit_cons, if_neg hc]
  rw [hres (c :: p), hres p, findStringSubmatch_shift hnone]

/-- C4 counterexample: the claim's grammar ("each segment either a literal
or a single `{name}` placeholder") admits the template `/t/(/{name}`, whose
third segment is the literal `(`.  The built pattern
`/(?P<path>.+)/(/(?P<name>.+)` has an unbalanced parenthesis, so
`regexp.Compile` rejects it and `PathParameters` returns the compile error:
`CompileError` is reachable for a grammar-conforming template. -/
theorem claim_C4_cex :
    templateStr [.lit [], .lit (str "t"), .lit (str "("), .ph (str "name")] =
        str "/t/(/{name}" ∧
      PathParameters (str "/t/(/{name}") (str "/t/x/y") = .compileErr :=
  ⟨by decide, by decide⟩

theorem mem_preSlash {c : Char} {pre : List Str} (h : c ∈ preSlash pre) :
    c = '/' ∨ ∃ ℓ ∈ pre, c ∈ ℓ := by
  induction pre with
  | nil => simp [preSlash] at h
  | cons a ps ih =>
    simp only [preSlash, List.foldr_cons] at h
    rcases List.mem_append.mp h with h1 | h1
    · exact Or.inr ⟨a, by simp, h1⟩
    · rcases List.mem_cons.mp h1 with h2 | h2
      · exact Or.inl h2
      · rcases ih h2 with h3 | ⟨ℓ, hℓ, hc⟩
        · exact Or.inl h3
        · exact Or.inr ⟨ℓ, List.mem_cons_of_mem _ hℓ, hc⟩

theorem mem_slashPre {c : Char} {post : List Str} (h : c ∈ slashPre post) :
    c = '/' ∨ ∃ ℓ ∈ post, c ∈ ℓ := by
  induction post with
  | nil => simp [slashPre] at h
  | cons a ps ih =>
    simp only [slashPre, List.foldr_cons] at h
    rcases List.mem_cons.mp h with h1 | h1
    · exact Or.inl h1
    · rcases List.mem_append.mp h1 with h2 | h2
      · exact Or.inr ⟨a, by simp, h2⟩
      · rcases ih h2 with h3 | ⟨ℓ, hℓ, hc⟩
        · exact Or.inl h3
        · exact Or.inr ⟨ℓ, List.mem_cons_of_mem _ hℓ, hc⟩

theorem slashPre_snoc (pre : List Str) : slashPre pre ++ ['/'] = '/' :: preSlash pre := by
  induction pre with
  | nil => rfl
  | cons a ps ih =>
    show ('/' :: (a ++ slashPre ps)) ++ ['/'] = '/' :: (a ++ '/' :: preSlash ps)
    rw [List.cons_append, List.append_assoc, ih]

theorem fieldsFunc_braceFreeCases {p : Char → Bool} {A : Str}
    (hA : ∀ c ∈ A, p c = false) :
    fieldsFunc p A = if A = [] then [] else [A] := by
  by_cases h : A = []
  · subst h; simp [fieldsFunc_nil]
  · rw [if_neg h]; exact fieldsFunc_last hA h

theorem ParsePath_template_render (t₁ mount name v : Str) (pre post : List Str)
    (hm2 : '{' ∉ mount) (hm3 : '}' ∉ mount)
    (hnn : name ≠ []) (hnw : ∀ c ∈ name, wordChar c = true)
    (ht : ∀ c ∈ t₁, metaChar c = false ∧ c ≠ '/')
    (hpre : ∀ ℓ ∈ pre, ∀ c ∈ ℓ, metaChar c = false ∧ c ≠ '/')
    (hpost : ∀ ℓ ∈ post, ∀ c ∈ ℓ, metaChar c = false ∧ c ≠ '/') :
    ParsePath mount
        (templateStr (.lit [] :: .lit t₁ :: (pre.map .lit ++ .ph name :: post.map .lit)))
        (fun f => if f = name then some v else none) =
      some ('/' :: (mount ++ '/' :: (preSlash pre ++ v ++ slashPre post))) := by
  have hnb1 : '{' ∉ name := fun hmem => absurd (hnw _ hmem) (by decide)
  have hnb2 : '}' ∉ name := fun hmem => absurd (hnw _ hmem) (by decide)
  have hnameSlash : '/' ∉ name := fun hmem => absurd (hnw _ hmem) (by decide)
  -- split the template back into its fields
  have hsegStr : (Seg.lit [] :: Seg.lit t₁ ::
      (pre.map Seg.lit ++ Seg.ph name :: post.map Seg.lit)).map segStr =
      [] :: t₁ :: (pre ++ tok name :: post) := by
    simp only [List.map_cons, List.map_append, List.map_map]
    rw [show segStr ∘ Seg.lit = id from funext fun s => rfl, List.map_id, List.map_id]
    rfl
  have hall : ∀ f ∈ ([] :: t₁ :: (pre ++ tok name :: post) : List Str), '/' ∉ f := by
    intro f hf
    rcases List.mem_cons.mp hf with h | hf
    · subst h; simp
    · rcases List.mem_cons.mp hf with h | hf
      · subst h; intro hc; exact (ht _ hc).2 rfl
      · rcases List.mem_append.mp hf with h | hf
        · intro hc; exact (hpre _ h _ hc).2 rfl
        · rcases List.mem_cons.mp hf with h | hf
          · subst h
            intro hc
            simp only [tok] at hc
            rcases List.mem_cons.mp hc with h1 | h1
            · exact absurd h1 (by decide)
            · rcases List.mem_append.mp h1 with h2 | h2
              · exact absurd (hnw _ h2) (by decide)
              · simp at h2
          · intro hc; exact (hpost _ hf _ hc).2 rfl
  have hsp : splitOnChar '/'
      (templateStr (Seg.lit [] :: Seg.lit t₁ ::
        (pre.map Seg.lit ++ Seg.ph name :: post.map Seg.lit))) =
      [] :: t₁ :: (pre ++ tok name :: post) := by
    unfold templateStr
    rw [hsegStr]
    exact splitOnChar_joinS (by simp) hall
  have hrec := recomprise_eq mount hsp
  have hjoin : joinS (mount :: (pre ++ tok name :: post)) =
      mount ++ '/' :: (preSlash pre ++ tok name ++ slashPre post) := by
    rw [joinS_cons_of_ne_nil (by simp), joinS_decompose]
  rw [hjoin] at hrec
  -- the recomprised string decomposed around the placeholder token
  have hshape : '/' :: (mount ++ '/' :: (preSlash pre ++ tok name ++ slashPre post)) =
      ('/' :: (mount ++ '/' :: preSlash pre)) ++ ('{' :: (name ++ '}' :: slashPre post)) := by
    simp [tok]
  have hR1free : ∀ c ∈ ('/' :: (mount ++ '/' :: preSlash pre) : Str),
      braceDelim c = false := by
    intro c hc
    have : c ≠ '{' ∧ c ≠ '}' := by
      rcases List.mem_cons.mp hc with h | hc
      · subst h; exact ⟨by decide, by decide⟩
      · rcases List.mem_append.mp hc with h | hc
        · constructor <;> intro he <;> subst he
          · exact hm2 h
          · exact hm3 h
        · rcases List.mem_cons.mp hc with h | hc
          · subst h; exact ⟨by decide, by decide⟩
          · rcases mem_preSlash hc with h | ⟨ℓ, hℓ, hcc⟩
            · subst h; exact ⟨by decide, by decide⟩
            · constructor <;> intro he <;> subst he
              · exact absurd (hpre _ hℓ _ hcc).1 (by decide)
              · exact absurd (hpre _ hℓ _ hcc).1 (by decide)
    simp [braceDelim, this.1, this.2]
  have hnamefree : ∀ c ∈ name, braceDelim c = false := by
    intro c hc
    have h1 : c ≠ '{' := fun he => hnb1 (he ▸ hc)
    have h2 : c ≠ '}' := fun he => hnb2 (he ▸ hc)
    simp [braceDelim, h1, h2]
  have hCfree : ∀ c ∈ slashPre post, braceDelim c = false := by
    intro c hc
    have : c ≠ '{' ∧ c ≠ '}' := by
      rcases mem_slashPre hc with h | ⟨ℓ, hℓ, hcc⟩
      · subst h; exact ⟨by decide, by decide⟩
      · constructor <;> intro he <;> subst he
        · exact absurd (hpost _ hℓ _ hcc).1 (by decide)
        · exact absurd (hpost _ hℓ _ hcc).1 (by decide)
    simp [braceDelim, this.1, this.2]
  have hfields : fieldsFunc braceDelim
      ('/' :: (mount ++ '/' :: (preSlash pre ++ tok name ++ slashPre post))) =
      ('/' :: (mount ++ '/' :: preSlash pre)) :: name ::
        (if slashPre post = [] then [] else [slashPre post]) := by
    rw [hshape, fieldsFunc_run hR1free (by simp) (by decide),
      fieldsFunc_run hnamefree hnn (by decide), fieldsFunc_braceFreeCases hCfree]
  rw [ParsePath_some hrec, hfields]
  -- now evaluate the substitution steps
  have hR1ne : ('/' :: (mount ++ '/' :: preSlash pre) : Str) ≠ name := by
    intro he
    exact hnameSlash (he ▸ List.mem_cons_self _ _)
  have hCne : slashPre post ≠ [] → slashPre post ≠ name := by
    intro hne he
    rcases post with _ | ⟨q, qs⟩
    · exact hne rfl
    · exact hnameSlash (he ▸ (by simp [slashPre] : '/' ∈ slashPre (q :: qs)))
  have hstep1 : substStep (fun f => if f = name then some v else none)
      ('/' :: (mount ++ '/' :: (preSlash pre ++ tok name ++ slashPre post)))
      ('/' :: (mount ++ '/' :: preSlash pre)) =
      '/' :: (mount ++ '/' :: (preSlash pre ++ tok name ++ slashPre post)) := by
    show (match (if ('/' :: (mount ++ '/' :: preSlash pre) : Str) = name
        then some v else none) with
      | none => '/' :: (mount ++ '/' :: (preSlash pre ++ tok name ++ slashPre post))
      | some val => replaceAll '{'
          (('/' :: (mount ++ '/' :: preSlash pre)) ++ ['\x7d']) val
          ('/' :: (mount ++ '/' :: (preSlash pre ++ tok name ++ slashPre post)))) =
      '/' :: (mount ++ '/' :: (preSlash pre ++ tok name ++ slashPre post))
    rw [if_neg hR1ne]
  have hreplace : replaceAll '{' (name ++ ['}']) v
      ('/' :: (mount ++ '/' :: (preSlash pre ++ tok name ++ slashPre post))) =
      '/' :: (mount ++ '/' :: (preSlash pre ++ v ++ slashPre post)) := by
    rw [hshape]
    have hfreeR1 : '{' ∉ ('/' :: (mount ++ '/' :: preSlash pre) : Str) := by
      intro hmem
      have := hR1free _ hmem
      simp [braceDelim] at this
    rw [replaceAll_append_free hfreeR1]
    rw [show ('{' :: (name ++ '}' :: slashPre post) : Str) =
      '{' :: (name ++ ['}']) ++ slashPre post by simp]
    rw [replaceAll_cons_hit]
    have hfreeC : '{' ∉ slashPre post := by
      intro hmem
      have := hCfree _ hmem
      simp [braceDelim] at this
    rw [replaceAll_not_contains hfreeC]
    simp
  have hstep2 : substStep (fun f => if f = name then some v else none)
      ('/' :: (mount ++ '/' :: (preSlash pre ++ tok name ++ slashPre post))) name =
      '/' :: (mount ++ '/' :: (preSlash pre ++ v ++ slashPre post)) := by
    show (match (if name = name then some v else none) with
      | none => '/' :: (mount ++ '/' :: (preSlash pre ++ tok name ++ slashPre post))
      | some val => replaceAll '{' (name ++ ['\x7d']) val
          ('/' :: (mount ++ '/' :: (preSlash pre ++ tok name ++ slashPre post)))) =
      '/' :: (mount ++ '/' :: (preSlash pre ++ v ++ slashPre post))
    rw [if_pos rfl]
    exact hreplace
  by_cases hpc : slashPre post = []
  · rw [if_pos hpc]
    rw [List.foldl_cons, List.foldl_cons, List.foldl_nil, hstep1, hstep2]
  · rw [if_neg hpc]
    rw [List.foldl_cons, List.foldl_cons, List.foldl_cons, List.foldl_nil,
      hstep1, hstep2]
    refine congrArg some ?_
    show (match (if slashPre post = name then some v else none) with
      | none => '/' :: (mount ++ '/' :: (preSlash pre ++ v ++ slashPre post))
      | some val => replaceAll '{' (slashPre post ++ ['\x7d']) val
          ('/' :: (mount ++ '/' :: (preSlash pre ++ v ++ slashPre post)))) =
      '/' :: (mount ++ '/' :: (preSlash pre ++ v ++ slashPre post))
    rw [if_neg (hCne hpc)]

theorem segNames_mapLit (ps : List Str) : segNames (ps.map Seg.lit) = [] := by
  induction ps with
  | nil => rfl
  | cons p ps' ih => exact ih

theorem segNames_shape (pre post : List Str) (name : Str) :
    segNames (pre.map Seg.lit ++ Seg.ph name :: post.map Seg.lit) = [name] := by
  induction pre with
  | nil =>
    show name :: segNames (post.map Seg.lit) = [name]
    rw [segNames_mapLit]
  | cons p pre' ih => exact ih

theorem itemsTail_mapLit (ps : List Str) :
    itemsTail (ps.map Seg.lit) = lits (slashPre ps) := by
  induction ps with
  | nil => rfl
  | cons p ps' ih =>
    show RItem.lit '/' :: (lits p ++ itemsTail (ps'.map Seg.lit)) =
      lits ('/' :: p ++ slashPre ps')
    rw [ih]
    simp [lits]

theorem itemsTail_shape (pre post : List Str) (name : Str) :
    itemsTail (pre.map Seg.lit ++ Seg.ph name :: post.map Seg.lit) =
      lits (slashPre pre ++ ['/']) ++ RItem.group name :: lits (slashPre post) := by
  induction pre with
  | nil =>
    show RItem.lit '/' :: ([RItem.group name] ++ itemsTail (post.map Seg.lit)) = _
    rw [itemsTail_mapLit]
    simp [lits, slashPre]
  | cons p pre' ih =>
    show RItem.lit '/' ::
        (lits p ++ itemsTail (pre'.map Seg.lit ++ Seg.ph name :: post.map Seg.lit)) = _
    rw [ih]
    simp [lits, slashPre]

theorem PathParameters_template_match (t₁ mount name v : Str) (pre post : List Str)
    (hm1 : mount ≠ []) (hmn : '\n' ∉ mount)
    (hnn : name ≠ []) (hnw : ∀ c ∈ name, wordChar c = true) (hnp : str "path" ≠ name)
    (ht : ∀ c ∈ t₁, metaChar c = false ∧ c ≠ '/')
    (hpre : ∀ ℓ ∈ pre, ∀ c ∈ ℓ, metaChar c = false ∧ c ≠ '/')
    (hpost : ∀ ℓ ∈ post, ∀ c ∈ ℓ, metaChar c = false ∧ c ≠ '/')
    (hv1 : v ≠ []) (hv2 : '/' ∉ v) (hvn : '\n' ∉ v) :
    PathParameters
        (templateStr (.lit [] :: .lit t₁ :: (pre.map .lit ++ .ph name :: post.map .lit)))
        ('/' :: (mount ++ '/' :: (preSlash pre ++ v ++ slashPre post))) =
      .ok [(str "path", mount), (name, v)] := by
  have h₀ : safeSeg (.lit []) = true := rfl
  have h₁ : safeSeg (.lit t₁) = true := safeSeg_lit_iff.mpr ht
  have hr : ∀ sg ∈ (pre.map Seg.lit ++ Seg.ph name :: post.map Seg.lit),
      safeSeg sg = true := by
    intro sg hsg
    rcases List.mem_append.mp hsg with h | h
    · obtain ⟨ℓ, hℓ, he⟩ := List.mem_map.mp h
      subst he
      exact safeSeg_lit_iff.mpr (hpre _ hℓ)
    · rcases List.mem_cons.mp h with h | h
      · subst h
        exact safeSeg_ph_iff.mpr ⟨hnn, hnw⟩
      · obtain ⟨ℓ, hℓ, he⟩ := List.mem_map.mp h
        subst he
        exact safeSeg_lit_iff.mpr (hpost _ hℓ)
  have hnd : (segNames [Seg.lit []] ++ str "path" ::
      segNames (pre.map Seg.lit ++ Seg.ph name :: post.map Seg.lit)).Nodup := by
    rw [segNames_shape]
    simp [segNames, hnp]
  have hres : PathParameters
      (templateStr (.lit [] :: .lit t₁ :: (pre.map .lit ++ .ph name :: post.map .lit)))
      ('/' :: (mount ++ '/' :: (preSlash pre ++ v ++ slashPre post))) =
      (match findStringSubmatch
          (itemsOf (Seg.lit []) (pre.map Seg.lit ++ Seg.ph name :: post.map Seg.lit))
          ('/' :: (mount ++ '/' :: (preSlash pre ++ v ++ slashPre post))) with
       | none => if groupNames (itemsOf (Seg.lit [])
                    (pre.map Seg.lit ++ Seg.ph name :: post.map Seg.lit)) = []
                 then PPResult.ok [] else PPResult.parseErr
       | some params => PPResult.ok params) := by
    unfold PathParameters
    rw [buildPattern_template h₀ h₁ hr]
    show (match regexpCompile (regexSegStr (Seg.lit []) ++ '/' :: grpStr (str "path") ++
        slashPre ((pre.map Seg.lit ++ Seg.ph name :: post.map Seg.lit).map regexSegStr)) with
      | none => PPResult.compileErr
      | some items =>
        match findStringSubmatch items
            ('/' :: (mount ++ '/' :: (preSlash pre ++ v ++ slashPre post))) with
        | none => if groupNames items = [] then PPResult.ok [] else PPResult.parseErr
        | some params => PPResult.ok params) = _
    rw [regexpCompile_template h₀ hr hnd]
  have hitems : itemsOf (Seg.lit []) (pre.map Seg.lit ++ Seg.ph name :: post.map Seg.lit) =
      RItem.lit '/' :: RItem.group (str "path") ::
        (lits (slashPre pre ++ ['/']) ++ RItem.group name :: lits (slashPre post)) := by
    unfold itemsOf
    rw [itemsTail_shape]
    rfl
  have hmC : minLen (lits (slashPre post)) = (slashPre post).length := by
    have h := minLen_lits_append (slashPre post) []
    simpa [minLen] using h
  have hinner : matchItems (RItem.group name :: lits (slashPre post))
      (v ++ slashPre post) = some [(name, v)] := by
    have h4 : matchItems (lits (slashPre post)) ((v ++ slashPre post).drop v.length) =
        some [] := by
      rw [List.drop_left]
      have h := matchItems_lits_append (slashPre post) [] []
      simpa using h
    have h5 : ∀ j, v.length < j → j ≤ (v ++ slashPre post).length →
        matchItems (lits (slashPre post)) ((v ++ slashPre post).drop j) = none := by
      intro j hj1 hj2
      apply matchItems_none_of_short
      rw [hmC, List.length_drop, List.length_append]
      rw [List.length_append] at hj2
      omega
    have hgrp := matchItems_group_eq (n := name) (List.length_pos.mpr hv1)
      (by rw [List.length_append]; omega)
      (by rw [List.take_left]; exact hvn) h4 h5
    rw [List.take_left] at hgrp
    exact hgrp
  have hcont : matchItems
      (lits (slashPre pre ++ ['/']) ++ RItem.group name :: lits (slashPre post))
      ((slashPre pre ++ ['/']) ++ (v ++ slashPre post)) = some [(name, v)] := by
    rw [matchItems_lits_append]
    exact hinner
  have houter : matchItems (RItem.group (str "path") ::
      (lits (slashPre pre ++ ['/']) ++ RItem.group name :: lits (slashPre post)))
      (mount ++ ((slashPre pre ++ ['/']) ++ (v ++ slashPre post))) =
      some [(str "path", mount), (name, v)] := by
    have h4 : matchItems
        (lits (slashPre pre ++ ['/']) ++ RItem.group name :: lits (slashPre post))
        ((mount ++ ((slashPre pre ++ ['/']) ++ (v ++ slashPre post))).drop mount.length) =
        some [(name, v)] := by
      rw [List.drop_left]
      exact hcont
    have h5 : ∀ j, mount.length < j →
        j ≤ (mount ++ ((slashPre pre ++ ['/']) ++ (v ++ slashPre post))).length →
        matchItems
          (lits (slashPre pre ++ ['/']) ++ RItem.group name :: lits (slashPre post))
          ((mount ++ ((slashPre pre ++ ['/']) ++ (v ++ slashPre post))).drop j) =
          none := by
      intro j hj1 hj2
      obtain ⟨δ, hδ⟩ : ∃ δ, j = mount.length + δ := ⟨j - mount.length, by omega⟩
      have hδ1 : 1 ≤ δ := by omega
      subst hδ
      rw [List.drop_append]
      by_cases hcase : δ < v.length
      · -- the dropped string would have to start with the literal run, whose
        -- final character `/` would land inside the slash-free value `v`
        apply matchItems_lits_not_prefix ?_ _
        intro hp
        obtain ⟨t, ht'⟩ := hp
        have hBlast : (slashPre pre ++ ['/'])[(slashPre pre).length]? = some '/' :=
          List.getElem?_concat_length _ _
        have hD : ((((slashPre pre ++ ['/']) ++ (v ++ slashPre post)).drop δ))[(slashPre pre).length]? =
            some '/' := by
          rw [← ht', List.getElem?_append_left (by simp)]
          exact hBlast
        rw [List.getElem?_drop] at hD
        have hidx : δ + (slashPre pre).length =
            (slashPre pre ++ ['/']).length + (δ - 1) := by
          simp only [List.length_append, List.length_cons, List.length_nil]
          omega
        rw [hidx, List.getElem?_append_right (by omega),
          Nat.add_sub_cancel_left] at hD
        rw [List.getElem?_append_left (by omega : δ - 1 < v.length),
          List.getElem?_eq_getElem (by omega : δ - 1 < v.length)] at hD
        injection hD with hD
        exact hv2 (hD ▸ List.getElem_mem (by omega : δ - 1 < v.length))
      · apply matchItems_none_of_short
        rw [minLen_lits_append, List.length_drop]
        simp only [List.length_append, List.length_cons, List.length_nil, minLen, hmC]
        rw [List.length_append] at hj2
        simp only [List.length_append, List.length_cons, List.length_nil] at hj2
        omega
    have hgrp := matchItems_group_eq (n := str "path") (List.length_pos.mpr hm1)
      (by rw [List.length_append]; omega)
      (by rw [List.take_left]; exact hmn) h4 h5
    rw [List.take_left] at hgrp
    exact hgrp
  have hshape2 : ('/' :: (mount ++ '/' :: (preSlash pre ++ v ++ slashPre post)) : Str) =
      '/' :: (mount ++ ((slashPre pre ++ ['/']) ++ (v ++ slashPre post))) := by
    rw [slashPre_snoc]
    simp
  have hmatch : matchItems (RItem.lit '/' :: RItem.group (str "path") ::
      (lits (slashPre pre ++ ['/']) ++ RItem.group name :: lits (slashPre post)))
      ('/' :: (mount ++ ((slashPre pre ++ ['/']) ++ (v ++ slashPre post)))) =
      some [(str "path", mount), (name, v)] := by
    rw [matchItems_lit_cons, if_pos rfl]
    exact houter
  have hfs : findStringSubmatch (RItem.lit '/' :: RItem.group (str "path") ::
      (lits (slashPre pre ++ ['/']) ++ RItem.group name :: lits (slashPre post)))
      ('/' :: (mount ++ '/' :: (preSlash pre ++ v ++ slashPre post))) =
      some [(str "path", mount), (name, v)] := by
    apply findStringSubmatch_of_zero
    rw [hshape2]
    exact hmatch
  rw [hres, hitems, hfs]

/-- C1 (amended): the round-trip holds for every endpoint template of the
documented grammar with a single placeholder `{name}` (placeholder not in
the first two segments, literal segments free of regexp metacharacters and
of `/`, placeholder name a non-empty word distinct from `path`), every
non-empty mount path free of `{`, `}` and newline, and every non-empty
value `v` free of `/` and newline: rendering with `ParsePath` produces the
resolved path, extracting with `PathParameters` returns exactly the map
with the mount under the fixed key `path` and `v` under `name`, and looking
up `name` in that map gives back `v`. -/
theorem claim_C1_amended (t₁ mount name v : Str) (pre post : List Str)
    (hm1 : mount ≠ []) (hm2 : '{' ∉ mount) (hm3 : '}' ∉ mount) (hmn : '\n' ∉ mount)
    (hnn : name ≠ []) (hnw : ∀ c ∈ name, wordChar c = true) (hnp : str "path" ≠ name)
    (ht : ∀ c ∈ t₁, metaChar c = false ∧ c ≠ '/')
    (hpre : ∀ ℓ ∈ pre, ∀ c ∈ ℓ, metaChar c = false ∧ c ≠ '/')
    (hpost : ∀ ℓ ∈ post, ∀ c ∈ ℓ, metaChar c = false ∧ c ≠ '/')
    (hv1 : v ≠ []) (hv2 : '/' ∉ v) (hvn : '\n' ∉ v) :
    ParsePath mount
        (templateStr (.lit [] :: .lit t₁ :: (pre.map .lit ++ .ph name :: post.map .lit)))
        (fun f => if f = name then some v else none) =
      some ('/' :: (mount ++ '/' :: (preSlash pre ++ v ++ slashPre post))) ∧
    PathParameters
        (templateStr (.lit [] :: .lit t₁ :: (pre.map .lit ++ .ph name :: post.map .lit)))
        ('/' :: (mount ++ '/' :: (preSlash pre ++ v ++ slashPre post))) =
      .ok [(str "path", mount), (name, v)] ∧
    mapGet [(str "path", mount), (name, v)] name = some v := by
  refine ⟨ParsePath_template_render t₁ mount name v pre post hm2 hm3 hnn hnw ht hpre hpost,
    PathParameters_template_match t₁ mount name v pre post hm1 hmn hnn hnw hnp ht hpre
      hpost hv1 hv2 hvn, ?_⟩
  show (if str "path" = name then some mount else mapGet [(name, v)] name) = some v
  rw [if_neg hnp]
  show (if name = name then some v else none) = some v
  rw [if_pos rfl]

theorem claim_C1_amended_witness :
    ((str "transform" : Str) ≠ [] ∧ '\n' ∉ (str "transform" : Str) ∧
      (str "my-role" : Str) ≠ [] ∧ '/' ∉ (str "my-role" : Str)) ∧
    (ParsePath (str "transform")
        (templateStr (.lit [] :: .lit (str "transform") ::
          ([str "role"].map .lit ++ .ph (str "name") :: ([] : List Str).map .lit)))
        (fun f => if f = str "name" then some (str "my-role") else none) =
      some ('/' :: (str "transform" ++ '/' ::
        (preSlash [str "role"] ++ str "my-role" ++ slashPre []))) ∧
    PathParameters
        (templateStr (.lit [] :: .lit (str "transform") ::
          ([str "role"].map .lit ++ .ph (str "name") :: ([] : List Str).map .lit)))
        ('/' :: (str "transform" ++ '/' ::
          (preSlash [str "role"] ++ str "my-role" ++ slashPre []))) =
      .ok [(str "path", str "transform"), (str "name", str "my-role")] ∧
    mapGet [(str "path", str "transform"), (str "name", str "my-role")] (str "name") =
      some (str "my-role")) :=
  ⟨by decide,
    claim_C1_amended (str "transform") (str "transform") (str "name") (str "my-role")
      [str "role"] [] (by decide) (by decide) (by decide) (by decide) (by decide)
      (by decide) (by decide) (by decide) (by decide) (by decide) (by decide)
      (by decide) (by decide)⟩

/-- C1 counterexample: the claim quantifies over every mount path, but with
the empty mount the round-trip breaks: rendering `/transform/role/{name}`
with mount `""` and `name ↦ my-role` yields `//role/my-role`, whose
extraction against the same template fails with the parse error (the
pattern `/(?P<path>.+)/role/(?P<name>.+)` needs a non-empty mount capture),
so no parameter map is produced at all. -/
theorem claim_C1_cex :
    ParsePath (str "") (str "/transform/role/{name}")
        (fun f => if f = str "name" then some (str "my-role") else none) =
      some (str "//role/my-role") ∧
    PathParameters (str "/transform/role/{name}") (str "//role/my-role") =
      .parseErr :=
  ⟨by decide, by decide⟩

theorem claim_C3_amended_witness :
    (safeSeg (Seg.lit (str "transform")) = true ∧
      (∀ sg ∈ [Seg.lit (str "role"), Seg.ph (str "name")], safeSeg sg = true) ∧
      (str "path" :: segNames [Seg.lit (str "role"), Seg.ph (str "name")]).Nodup ∧
      ('x' : Char) ≠ '/') ∧
    PathParameters (templateStr (.lit [] :: .lit (str "transform") ::
        [Seg.lit (str "role"), Seg.ph (str "name")]))
      ('x' :: str "/transform/role/my-role") =
    PathParameters (templateStr (.lit [] :: .lit (str "transform") ::
        [Seg.lit (str "role"), Seg.ph (str "name")]))
      (str "/transform/role/my-role") :=
  ⟨by decide, claim_C3_amended (str "/transform/role/my-role") 'x'
    (.lit (str "transform")) [Seg.lit (str "role"), Seg.ph (str "name")]
    (by decide) (by decide) (by decide) (by decide)⟩

theorem claim_C4_amended_witness :
    (safeSeg (.lit []) = true ∧ safeSeg (.lit (str "transform")) = true ∧
      (∀ sg ∈ [Seg.lit (str "role"), Seg.ph (str "name")], safeSeg sg = true) ∧
      (segNames [Seg.lit []] ++ str "path" ::
        segNames [Seg.lit (str "role"), Seg.ph (str "name")]).Nodup) ∧
    (PathParameters (templateStr (Seg.lit [] :: Seg.lit (str "transform") ::
        [Seg.lit (str "role"), Seg.ph (str "name")])) (str "/x") ≠ .panic ∧
      PathParameters (templateStr (Seg.lit [] :: Seg.lit (str "transform") ::
        [Seg.lit (str "role"), Seg.ph (str "name")])) (str "/x") ≠ .compileErr) :=
  ⟨by decide, claim_C4_amended (str "/x") (.lit []) (.lit (str "transform"))
    [Seg.lit (str "role"), Seg.ph (str "name")] (by decide) (by decide) (by decide)
    (by decide)⟩

theorem claim_C5_witness :
    ('/' ∈ (str "/transform/role/{name}" : Str) ∧ '{' ∉ (str "name" : Str) ∧
      '}' ∉ (str "name" : Str) ∧
      (fun _ : Str => (none : Option Str)) (str "name") = none) ∧
    ((∃ out, ParsePath (str "transform") (str "/transform/role/{name}")
          (fun _ => none) = some out ∧
        ∀ rec, recomprise (str "transform") (str "/transform/role/{name}") = some rec →
          tok (str "name") <:+: rec → tok (str "name") <:+: out) ∧
      ParsePath (str "transform") (str "/transform/role/{name}") (fun _ => none) =
        some (str "/transform/role/{name}")) :=
  ⟨⟨by decide, by decide, by decide, rfl⟩,
    claim_C5 (str "transform") (str "/transform/role/{name}") (fun _ => none)
      (str "name") (by decide) (by decide) (by decide) rfl⟩

theorem claim_C6_witness :
    ('/' ∈ (str "/transform/role/{name}" : Str) ∧ (str "transform" : Str) ≠ [] ∧
      '/' ∉ (str "transform" : Str) ∧ '{' ∉ (str "transform" : Str) ∧
      '}' ∉ (str "transform" : Str)) ∧
    ((∃ out, ParsePath (str "transform") (str "/transform/role/{name}")
          (fun f => if f = str "name" then some (str "my-role") else none) = some out ∧
        (splitOnChar '/' out).get? 0 = some [] ∧
        (splitOnChar '/' out).get? 1 = some (str "transform") ∧
        ∃ c t, out = '/' :: c :: t ∧ c ≠ '/') ∧
      ParsePath (str "transform") (str "/transform/role/{name}")
          (fun f => if f = str "name" then some (str "my-role") else none) =
        some (str "/transform/role/my-role")) :=
  ⟨by decide, claim_C6 (str "transform") (str "/transform/role/{name}")
    (fun f => if f = str "name" then some (str "my-role") else none)
    (by decide) (by decide) (by decide) (by decide) (by decide)⟩

theorem claim_C8_witness :
    (safeSeg (Seg.lit ([] : Str)) = true ∧ safeSeg (Seg.lit (str "transform")) = true ∧
      (∀ sg ∈ [Seg.lit (str "role"), Seg.ph (str "name")], safeSeg sg = true) ∧
      PathParameters (templateStr (.lit [] :: .lit (str "transform") ::
          [Seg.lit (str "role"), Seg.ph (str "name")]))
        (str "/transform/role/my-role") =
        .ok [(str "path", str "transform"), (str "name", str "my-role")]) ∧
    ((∀ pr ∈ [(str "path", str "transform"), (str "name", str "my-role")], pr.2 ≠ []) ∧
      ([(str "path", str "transform"), (str "name", str "my-role")].map
        Prod.fst).Nodup) :=
  ⟨by decide, claim_C8_amended (str "/transform/role/my-role") (.lit [])
    (.lit (str "transform")) [Seg.lit (str "role"), Seg.ph (str "name")]
    (by decide) (by decide) (by decide)
    [(str "path", str "transform"), (str "name", str "my-role")] (by decide)⟩

theorem claim_C9_amended_witness :
    (∀ rec, recomprise (str "transform") (str "/transform/role/{name}") = some rec →
      ∀ f ∈ fieldsFunc braceDelim rec,
        (fun g => if g = str "name" then some (str "my-role") else none) f =
        (fun g => if g = str "name" then some (str "my-role") else
          if g = str "other" then some (str "x") else none) f) ∧
    ParsePath (str "transform") (str "/transform/role/{name}")
        (fun g => if g = str "name" then some (str "my-role") else none) =
      ParsePath (str "transform") (str "/transform/role/{name}")
        (fun g => if g = str "name" then some (str "my-role") else
          if g = str "other" then some (str "x") else none) := by
  have hagree : ∀ rec,
      recomprise (str "transform") (str "/transform/role/{name}") = some rec →
      ∀ f ∈ fieldsFunc braceDelim rec,
        (fun g => if g = str "name" then some (str "my-role") else none) f =
        (fun g => if g = str "name" then some (str "my-role") else
          if g = str "other" then some (str "x") else none) f := by
    intro rec hrec
    have hr2 : (some (str "/transform/role/{name}") : Option Str) = some rec := by
      rw [← hrec]
      decide
    injection hr2 with hr2
    subst hr2
    decide
  exact ⟨hagree, claim_C9_amended (str "transform") (str "/transform/role/{name}")
    (fun g => if g = str "name" then some (str "my-role") else none)
    (fun g => if g = str "name" then some (str "my-role") else
      if g = str "other" then some (str "x") else none) hagree⟩

/-- Helper of `splitTopAlt`: scan tracking the parenthesis depth, with the
characters of the current branch accumulated in reverse. -/
def splitTopAltAux : Nat → Str → Str → List Str
  | _, acc, [] => [acc.reverse]
  | d, acc, ch :: rest =>
    if ch = '(' then splitTopAltAux (d + 1) (ch :: acc) rest
    else if ch = ')' then splitTopAltAux (d - 1) (ch :: acc) rest
    else if ch = '|' then
      if d = 0 then acc.reverse :: splitTopAltAux 0 [] rest
      else splitTopAltAux d (ch :: acc) rest
    else splitTopAltAux d (ch :: acc) rest

/-- Split a pattern on `|` at parenthesis depth 0: Go regexp alternation
has the lowest precedence, so a top-level `|` splits the whole pattern into
alternatives (a `|` inside a group belongs to that group). -/
def splitTopAlt (s : Str) : List Str := splitTopAltAux 0 [] s

/-- The capture-group names of a list of alternation branches, in pattern
order (Go numbers groups left to right across the whole pattern). -/
def groupNamesA (branches : List (List RItem)) : List Str :=
  branches.foldr (fun b acc => groupNames b ++ acc) []

/-- Parse every alternation branch with the fragment parser. -/
def parseBranches : List Str → Option (List (List RItem))
  | [] => some []
  | p :: ps =>
    match parseItems p, parseBranches ps with
    | some b, some bs => some (b :: bs)
    | _, _ => none

/-- `regexp.Compile` extended with top-level alternation: the pattern is
split on depth-0 `|`, each alternative must lie in the literal/group
fragment, and duplicate capture-group names across the whole pattern are
rejected as Go does. -/
def regexpCompileA (pattern : Str) : Option (List (List RItem)) :=
  match parseBranches (splitTopAlt pattern) with
  | none => none
  | some branches => if (groupNamesA branches).Nodup then some branches else none

/-- Matching an alternation at one position, Go/Perl leftmost-first order:
the first alternative that matches wins; the capture groups of the
alternatives that did not participate in the match report the empty string,
exactly as Go's `FindStringSubmatch` returns them. -/
def matchAlts : List (List RItem) → Str → Option (List (Str × Str))
  | [], _ => none
  | b :: bs, s =>
    match matchItems b s with
    | some caps => some (caps ++ (groupNamesA bs).map (fun n => (n, ([] : Str))))
    | none =>
      (matchAlts bs s).map (fun caps =>
        (groupNames b).map (fun n => (n, ([] : Str))) ++ caps)

/-- `Regexp.FindStringSubmatch` over the alternation-aware model: try the
match at every start position, left to right. -/
def findStringSubmatchA (branches : List (List RItem)) : Str → Option (List (Str × Str))
  | [] => matchAlts branches []
  | ch :: s =>
    match matchAlts branches (ch :: s) with
    | some r => some r
    | none => findStringSubmatchA branches s

/-- `util.PathParameters` over the alternation-aware regexp model: same
pattern construction, compile, leftmost submatch and `SubexpNames` walk. -/
def PathParametersA (endpoint vaultPath : Str) : PPResult :=
  match buildPattern endpoint with
  | none => .panic
  | some pattern =>
    match regexpCompileA pattern with
    | none => .compileErr
    | some branches =>
      match findStringSubmatchA branches vaultPath with
      | none => if groupNamesA branches = [] then .ok [] else .parseErr
      | some params => .ok params

/-- C8 counterexample: the non-empty-values claim quantifies over every
endpoint template, but a literal segment may carry a regexp metacharacter.
The endpoint `/m/x|y` builds the pattern `/(?P<path>.+)/x|y`, which Go
compiles with a top-level alternation.  On the concrete path `y` the second
alternative matches at position 0 with the `path` group not participating,
so `FindStringSubmatch` reports the empty string for it and the extraction
succeeds with the map `{path: ""}` — an empty value, refuting the claim.
(The conservative fragment model rejects this pattern as a compile error;
the alternation-aware model `PathParametersA` exhibits the behaviour.) -/
theorem claim_C8_cex :
    buildPattern (str "/m/x|y") = some (str "/(?P<path>.+)/x|y") ∧
    PathParametersA (str "/m/x|y") (str "y") = .ok [(str "path", [])] ∧
    ¬ (∀ pr ∈ [(str "path", ([] : Str))], pr.2 ≠ []) :=
  ⟨by decide, by decide, by decide⟩
